import Mathlib

/-
Verification of the heightmap rasterizer core (ao/render/discrete/heightmap.cpp).

The development shallowly embeds the renderer:

* Machine floats of the depth image are modelled as `WithBot ℚ`: the code only
  ever stores `-inf` (the initial fill) or finite voxel-centre heights, and only
  compares them with `<`/`>=`, so an exact ordered field with a bottom element
  is a faithful model of the observable behaviour.
* The evaluator (`Evaluator` in the source) is external to the given sources
  and is used through the contract of the specification: batched point values,
  gradients, and a sound interval query.  It is represented by the abstract
  structure `Eval` below; `IntervalSound` states the contract that the interval
  result bounds the field at every staged voxel centre.
* The `NormalRenderer` batches pixels and writes their packed normal words at
  `run()`/`flush()` time.  The renderer never reads the normal image, each call
  of `pixels`/`fill` pushes a pixel at most once and flushes before returning,
  and `run()` blits slots in order, so deferring the writes to the flush is
  observationally the write performed at push time; the image-level model
  performs the write at push time.  The batch-counter discipline itself is
  modelled separately and faithfully by `NRState`.
* `recurse` is recursive through `View::split`; the embedding makes the
  recursion structural on an explicit fuel argument.  Any fuel at least the
  voxel count of the view is enough (the split strictly shrinks views), which
  is what the driver model passes.
-/

namespace HeightmapModel

/-- A pixel is addressed by its global (x, y) indices into the voxel grid. -/
abbrev Pixel := ℕ × ℕ

/-- The depth image: per pixel a 32-bit float that is either the `-inf`
sentinel (bottom) or a finite voxel-centre height, modelled exactly. -/
abbrev DepthImage := Pixel → WithBot ℚ

/-- The normal image: per pixel a packed 32-bit RGBA word, modelled as ℕ. -/
abbrev NormalImage := Pixel → ℕ

/-- A `Voxels::View`: a sub-box of the voxel grid given by its corner indices
into the global sample arrays and its per-axis sample counts. -/
structure View where
  cx : ℕ
  cy : ℕ
  cz : ℕ
  sx : ℕ
  sy : ℕ
  sz : ℕ
deriving Repr, DecidableEq

/-- Number of voxels of a view, `r.voxels()` in the source. -/
def View.voxels (V : View) : ℕ := V.sx * V.sy * V.sz

/-- The abstract evaluator of the specification (the implementation is outside
the given sources).  `pz` is the global array of z sample centres; `fieldAt`
is the field value the batched evaluator returns for the (transformed) voxel
centre with the given global indices — by the contract, a staged point is
inside exactly when this value is `< 0`.  `laneX`/`laneY`/`laneZ` are the
scaled gradient byte lanes `derivs` produces for a pixel staged at height z,
and `ieval` is the interval query over a view's box. -/
structure Eval where
  pz : ℕ → ℚ
  fieldAt : ℕ → ℕ → ℕ → ℚ
  laneX : Pixel → ℚ → ℕ
  laneY : Pixel → ℚ → ℕ
  laneZ : Pixel → ℚ → ℕ
  ieval : View → ℚ × ℚ

/-- Soundness of the interval evaluator (contract of the specification):
the interval `[lower, upper]` returned for a view bounds the field at every
voxel centre of the view. -/
def IntervalSound (E : Eval) : Prop :=
  ∀ V : View, ∀ i j k : ℕ, i < V.sx → j < V.sy → k < V.sz →
    (E.ieval V).1 ≤ E.fieldAt (V.cx + i) (V.cy + j) (V.cz + k) ∧
    E.fieldAt (V.cx + i) (V.cy + j) (V.cz + k) ≤ (E.ieval V).2

/-- Packing of `norm(ys[i], xs[i]) = (0xff << 24) | (iz << 16) | (iy << 8) | ix`
in uint32 arithmetic: the shifted lanes wrap modulo 2^32; the bitwise or of
words below 2^32 stays below 2^32. -/
def packNormal (ix iy iz : ℕ) : ℕ :=
  0xff000000 ||| ((iz % 2 ^ 32) <<< 16) % 2 ^ 32 ||| ((iy % 2 ^ 32) <<< 8) % 2 ^ 32 |||
    ix % 2 ^ 32

theorem packNormal_ne_zero (ix iy iz : ℕ) : packNormal ix iy iz ≠ 0 := by
  intro h
  have h24 : (packNormal ix iy iz).testBit 24 = true := by
    unfold packNormal
    simp only [Nat.testBit_lor]
    have : Nat.testBit 0xff000000 24 = true := by decide
    simp [this]
  rw [h] at h24
  simp [Nat.zero_testBit] at h24

/-- The packed word the normal batcher writes for a pixel whose gradient was
evaluated at height `z` (the dummy alpha byte makes the high byte 0xff). -/
def wordAt (E : Eval) (p : Pixel) (z : ℚ) : ℕ :=
  packNormal (E.laneX p z) (E.laneY p z) (E.laneZ p z)

/-- The packed word as a function of a possibly-bottom depth value. -/
def wordAtW (E : Eval) (p : Pixel) (z : WithBot ℚ) : ℕ :=
  WithBot.recBotCoe 0 (fun q => wordAt E p q) z

theorem wordAtW_bot (E : Eval) (p : Pixel) : wordAtW E p ⊥ = 0 := rfl

theorem wordAtW_coe (E : Eval) (p : Pixel) (q : ℚ) :
    wordAtW E p (q : WithBot ℚ) = wordAt E p q := rfl

theorem wordAtW_ne_zero (E : Eval) (p : Pixel) (z : WithBot ℚ) (hz : z ≠ ⊥) :
    wordAtW E p z ≠ 0 := by
  cases z with
  | bot => exact absurd rfl hz
  | coe q => exact packNormal_ne_zero _ _ _

/-! ### Maximum of a list of heights -/

/-- Maximum of a list of heights, bottom if the list is empty. -/
def lmax (l : List ℚ) : WithBot ℚ :=
  l.foldr (fun z a => max (z : WithBot ℚ) a) ⊥

theorem lmax_nil : lmax [] = ⊥ := rfl

theorem lmax_cons (z : ℚ) (l : List ℚ) :
    lmax (z :: l) = max (z : WithBot ℚ) (lmax l) := rfl

theorem lmax_append (l₁ l₂ : List ℚ) :
    lmax (l₁ ++ l₂) = max (lmax l₁) (lmax l₂) := by
  induction l₁ with
  | nil => simp [lmax_nil, lmax]
  | cons a l ih =>
      simp only [List.cons_append, lmax_cons, ih, max_assoc]

theorem le_lmax_of_mem {q : ℚ} {l : List ℚ} (h : q ∈ l) :
    (q : WithBot ℚ) ≤ lmax l := by
  induction l with
  | nil => cases h
  | cons a l ih =>
      rcases List.mem_cons.mp h with h | h
      · subst h; exact le_max_left _ _
      · exact le_trans (ih h) (le_max_right _ _)

theorem lmax_le {l : List ℚ} {M : WithBot ℚ} (h : ∀ q ∈ l, (q : WithBot ℚ) ≤ M) :
    lmax l ≤ M := by
  induction l with
  | nil => simp [lmax_nil]
  | cons a l ih =>
      rw [lmax_cons]
      exact max_le (h a (List.mem_cons_self a l)) (ih fun q hq => h q (List.mem_cons_of_mem _ hq))

theorem lmax_eq_of_mem_of_le {q : ℚ} {l : List ℚ} (hmem : q ∈ l)
    (hle : ∀ w ∈ l, w ≤ q) : lmax l = (q : WithBot ℚ) :=
  le_antisymm (lmax_le fun w hw => by exact_mod_cast hle w hw) (le_lmax_of_mem hmem)

/-! ### Column maxima -/

/-- The maximum height among the voxel centres of one (x, y) column whose field
value is `< 0`, over the z index range `[cz, cz + sz)`; bottom when no such
voxel exists.  This is the specification value the depth image must reach. -/
def colZ (E : Eval) (cz sz : ℕ) (p : Pixel) : WithBot ℚ :=
  lmax ((List.range sz).filterMap fun k =>
    if E.fieldAt p.1 p.2 (cz + k) < 0 then some (E.pz (cz + k)) else none)

theorem colZ_zero (E : Eval) (cz : ℕ) (p : Pixel) : colZ E cz 0 p = ⊥ := rfl

theorem colZ_succ (E : Eval) (cz c : ℕ) (p : Pixel) :
    colZ E cz (c + 1) p =
      max (colZ E cz c p)
        (if E.fieldAt p.1 p.2 (cz + c) < 0 then (E.pz (cz + c) : WithBot ℚ) else ⊥) := by
  unfold colZ
  rw [List.range_succ, List.filterMap_append, lmax_append]
  congr 1
  by_cases h : E.fieldAt p.1 p.2 (cz + c) < 0 <;> simp [h, lmax_cons, lmax_nil]

theorem colZ_le_pz (E : Eval) (cz sz : ℕ) (p : Pixel)
    (M : ℚ) (hM : ∀ k, k < sz → E.pz (cz + k) ≤ M) :
    colZ E cz sz p ≤ (M : WithBot ℚ) := by
  unfold colZ
  refine lmax_le ?_
  intro q hq
  rcases List.mem_filterMap.mp hq with ⟨k, hk, hq⟩
  rw [List.mem_range] at hk
  by_cases h : E.fieldAt p.1 p.2 (cz + k) < 0
  · rw [if_pos h] at hq
    cases hq
    exact_mod_cast hM k hk
  · rw [if_neg h] at hq; cases hq

/-- Splitting the z range splits the column maximum (additive form). -/
theorem colZ_add (E : Eval) (cz a b : ℕ) (p : Pixel) :
    colZ E cz (a + b) p = max (colZ E cz a p) (colZ E (cz + a) b p) := by
  unfold colZ
  rw [List.range_add, List.filterMap_append, lmax_append]
  congr 2
  rw [List.filterMap_map]
  apply List.filterMap_congr
  intro k _
  simp only [Function.comp_apply]
  have : cz + (a + k) = cz + a + k := by omega
  rw [this]

/-- Splitting the z range splits the column maximum. -/
theorem colZ_split (E : Eval) (cz sz h : ℕ) (hh : h ≤ sz) (p : Pixel) :
    colZ E cz sz p = max (colZ E cz h p) (colZ E (cz + h) (sz - h) p) := by
  have hsz : sz = h + (sz - h) := by omega
  rw [hsz, colZ_add]
  have harith : h + (sz - h) - h = sz - h := by omega
  rw [harith]

/-- If no voxel centre of the column range is inside, the column maximum is
bottom. -/
theorem colZ_eq_bot (E : Eval) (cz sz : ℕ) (p : Pixel)
    (h : ∀ k, k < sz → ¬ E.fieldAt p.1 p.2 (cz + k) < 0) :
    colZ E cz sz p = ⊥ := by
  unfold colZ
  have : ((List.range sz).filterMap fun k =>
      if E.fieldAt p.1 p.2 (cz + k) < 0 then some (E.pz (cz + k)) else none) = [] := by
    rw [List.filterMap_eq_nil_iff]
    intro k hk
    rw [List.mem_range] at hk
    rw [if_neg (h k hk)]
  rw [this, lmax_nil]

/-- If every voxel centre of the (nonempty) column range is inside, the column
maximum is the height of the topmost sample. -/
theorem colZ_eq_top (E : Eval) (hm : Monotone E.pz) (cz sz : ℕ) (hsz : 0 < sz) (p : Pixel)
    (h : ∀ k, k < sz → E.fieldAt p.1 p.2 (cz + k) < 0) :
    colZ E cz sz p = (E.pz (cz + (sz - 1)) : WithBot ℚ) := by
  unfold colZ
  apply lmax_eq_of_mem_of_le
  · rw [List.mem_filterMap]
    refine ⟨sz - 1, ?_, ?_⟩
    · rw [List.mem_range]; omega
    · rw [if_pos (h _ (by omega))]
  · intro w hw
    rcases List.mem_filterMap.mp hw with ⟨k, hk, hw⟩
    rw [List.mem_range] at hk
    rw [if_pos (h k hk)] at hw
    cases hw
    exact hm (by omega)

/-! ### View iteration (VIEW_ITERATE_XYZ) -/

/-- The global pixel of column (i, j) of a view. -/
def View.pix (V : View) (i j : ℕ) : Pixel := (V.cx + i, V.cy + j)

/-- The (i, j) column indices of a view in iteration order: i (over x) is the
outer loop, j (over y) the inner one, exactly as in VIEW_ITERATE_XYZ. -/
def cols (V : View) : List (ℕ × ℕ) :=
  (List.range V.sx).flatMap fun i => (List.range V.sy).map fun j => (i, j)

/-- The pixel footprint of a view, in column iteration order. -/
def footpr (V : View) : List Pixel :=
  (cols V).map fun c => V.pix c.1 c.2

/-- Height of the topmost z sample of a view, `r.pts.z()[r.size.z() - 1]`. -/
def topZ (E : Eval) (V : View) : ℚ := E.pz (V.cz + (V.sz - 1))

theorem mem_cols {V : View} {c : ℕ × ℕ} :
    c ∈ cols V ↔ c.1 < V.sx ∧ c.2 < V.sy := by
  unfold cols
  rw [List.mem_flatMap]
  constructor
  · rintro ⟨i, hi, hc⟩
    rw [List.mem_range] at hi
    rcases List.mem_map.mp hc with ⟨j, hj, hc⟩
    rw [List.mem_range] at hj
    subst hc
    exact ⟨hi, hj⟩
  · rintro ⟨h1, h2⟩
    refine ⟨c.1, List.mem_range.mpr h1, List.mem_map.mpr ⟨c.2, List.mem_range.mpr h2, rfl⟩⟩

theorem cols_nodup (V : View) : (cols V).Nodup := by
  have : cols V = (List.range V.sx).product (List.range V.sy) := rfl
  rw [this]
  exact List.Nodup.product (List.nodup_range _) (List.nodup_range _)

theorem pix_injective (V : View) {i j i2 j2 : ℕ}
    (h : V.pix i j = V.pix i2 j2) : i = i2 ∧ j = j2 := by
  unfold View.pix at h
  constructor <;> [have := congrArg Prod.fst h; have := congrArg Prod.snd h] <;>
    simp at this <;> omega

theorem footpr_nodup (V : View) : (footpr V).Nodup := by
  refine List.Nodup.map ?_ (cols_nodup V)
  intro c1 c2 h
  have := pix_injective V h
  exact Prod.ext this.1 this.2

theorem mem_footpr {V : View} {p : Pixel} :
    p ∈ footpr V ↔
      V.cx ≤ p.1 ∧ p.1 < V.cx + V.sx ∧ V.cy ≤ p.2 ∧ p.2 < V.cy + V.sy := by
  unfold footpr
  rw [List.mem_map]
  constructor
  · rintro ⟨c, hc, hp⟩
    rcases mem_cols.mp hc with ⟨h1, h2⟩
    subst hp
    unfold View.pix
    simp only
    omega
  · rintro ⟨h1, h2, h3, h4⟩
    refine ⟨(p.1 - V.cx, p.2 - V.cy), mem_cols.mpr ⟨by omega, by omega⟩, ?_⟩
    unfold View.pix
    simp only
    rw [Prod.ext_iff]
    simp only
    omega

/-- Column maximum relative to a view: bottom outside its footprint. -/
def colMaxV (E : Eval) (V : View) (p : Pixel) : WithBot ℚ :=
  if p ∈ footpr V then colZ E V.cz V.sz p else ⊥

theorem colMaxV_le_topZ (E : Eval) (hm : Monotone E.pz) (V : View) (p : Pixel) :
    colMaxV E V p ≤ (topZ E V : WithBot ℚ) := by
  unfold colMaxV
  split
  · refine colZ_le_pz E _ _ _ _ fun k hk => ?_
    unfold topZ
    exact hm (by omega)
  · exact bot_le

/-! ### Depth and normal writes -/

/-- Point update of the depth image. -/
def dwrite (d : DepthImage) (p : Pixel) (z : ℚ) : DepthImage :=
  fun q => if q = p then (z : WithBot ℚ) else d q

/-- Point update of the normal image. -/
def nwrite (n : NormalImage) (p : Pixel) (w : ℕ) : NormalImage :=
  fun q => if q = p then w else n q

/-- The guarded depth write both `pixels` and `fill` perform: if the stored
depth is below z, store z and push the pixel to the normal batcher (whose
eventual blit writes the packed word for (p, z), see the file comment). -/
def depthWrite (E : Eval) (d : DepthImage) (n : NormalImage) (p : Pixel) (z : ℚ) :
    DepthImage × NormalImage :=
  if d p < (z : WithBot ℚ) then (dwrite d p z, nwrite n p (wordAt E p z)) else (d, n)

/-- One image-update step of the renderer: depths never decrease, and a pixel's
normal word is rewritten (to the packed word of its new depth) exactly when its
depth changed. -/
def ImgStep (E : Eval) (d : DepthImage) (n : NormalImage)
    (d2 : DepthImage) (n2 : NormalImage) : Prop :=
  ∀ p, d p ≤ d2 p ∧ (d2 p = d p → n2 p = n p) ∧ (d2 p ≠ d p → n2 p = wordAtW E p (d2 p))

theorem ImgStep.refl (E : Eval) (d : DepthImage) (n : NormalImage) :
    ImgStep E d n d n :=
  fun _ => ⟨le_refl _, fun _ => rfl, fun h => absurd rfl h⟩

theorem ImgStep.trans {E : Eval} {d n d2 n2 d3 n3}
    (h1 : ImgStep E d n d2 n2) (h2 : ImgStep E d2 n2 d3 n3) :
    ImgStep E d n d3 n3 := by
  intro p
  obtain ⟨hle1, heq1, hne1⟩ := h1 p
  obtain ⟨hle2, heq2, hne2⟩ := h2 p
  refine ⟨le_trans hle1 hle2, ?_, ?_⟩
  · intro h
    have h21 : d2 p = d p := le_antisymm (h ▸ hle2) hle1
    have h32 : d3 p = d2 p := by rw [h21, h]
    rw [heq2 h32, heq1 h21]
  · intro h
    by_cases h32 : d3 p = d2 p
    · have h21 : d2 p ≠ d p := by rw [← h32]; exact h
      rw [heq2 h32, hne1 h21, h32]
    · exact hne2 h32

theorem depthWrite_stepped (E : Eval) (d : DepthImage) (n : NormalImage)
    (p : Pixel) (z : ℚ) :
    ImgStep E d n (depthWrite E d n p z).1 (depthWrite E d n p z).2 := by
  unfold depthWrite
  split
  · rename_i hlt
    intro q
    by_cases hq : q = p
    · subst hq
      refine ⟨?_, ?_, ?_⟩
      · simp only [dwrite, if_pos rfl]
        exact le_of_lt hlt
      · intro h
        simp only [dwrite, if_pos rfl] at h
        exact absurd h (ne_of_gt hlt)
      · intro _
        simp [dwrite, nwrite, wordAtW_coe]
    · refine ⟨?_, ?_, ?_⟩
      · simp only [dwrite, if_neg hq]
        exact le_refl _
      · intro _
        simp only [nwrite, if_neg hq]
      · intro h
        simp only [dwrite, if_neg hq] at h
        exact absurd rfl h
  · exact ImgStep.refl E d n

theorem depthWrite_depth (E : Eval) (d : DepthImage) (n : NormalImage)
    (p : Pixel) (z : ℚ) (q : Pixel) :
    (depthWrite E d n p z).1 q = if q = p then max (d q) (z : WithBot ℚ) else d q := by
  unfold depthWrite dwrite
  split
  · rename_i hlt
    by_cases hq : q = p
    · subst hq
      simp [max_eq_right (le_of_lt hlt)]
    · simp [hq]
  · rename_i hlt
    by_cases hq : q = p
    · subst hq
      simp [max_eq_left (le_of_not_lt hlt)]
    · simp [hq]

/-! ### The leaf rasterizer (`pixels`)

Phase 1 of the source flattens the view in VIEW_ITERATE_XYZ order, staging the
voxel centre `(pts.x[i], pts.y[j], pts.z[sz-1-k])` at the running index, with a
whole column skipped when its pixel depth already reaches the view's top
height; `values(index)` then yields the field at the staged points, modelled by
`stageColumn`/`stageList` below.  Phase 2 replays the same iteration consuming
`out` by index (`scanCol`, `pixCols`). -/

/-- The field values phase 1 stages for one (i, j) column: the whole column in
descending z order if its pixel is below the view's top height, else nothing. -/
def stageColumn (E : Eval) (V : View) (d : DepthImage) (i j : ℕ) : List ℚ :=
  if d (V.pix i j) < (topZ E V : WithBot ℚ) then
    (List.range V.sz).map fun k => E.fieldAt (V.cx + i) (V.cy + j) (V.cz + (V.sz - 1 - k))
  else []

/-- Concatenated staged values of a list of columns. -/
def stageOf (E : Eval) (V : View) (d : DepthImage) (cs : List (ℕ × ℕ)) : List ℚ :=
  cs.flatMap fun c => stageColumn E V d c.1 c.2

/-- All values staged by phase 1 of `pixels`, in staging order. -/
def stageList (E : Eval) (V : View) (d : DepthImage) : List ℚ :=
  stageOf E V d (cols V)

/-- The inner k loop of phase 2 for one column, with `c` iterations left
(`k = sz - c`).  Reading a staged value `< 0` performs the guarded depth
write, advances the cursor past the `sz - k - 1` remaining staged values
of the column, and breaks. -/
def scanCol (E : Eval) (V : View) (out : ℕ → ℚ) (i j : ℕ) :
    ℕ → ℕ → DepthImage → NormalImage → ℕ × DepthImage × NormalImage
  | 0, idx, d, n => (idx, d, n)
  | c + 1, idx, d, n =>
    if out idx < 0 then
      (idx + 1 + (V.sz - 1 - (V.sz - (c + 1))),
        (depthWrite E d n (V.pix i j) (E.pz (V.cz + (V.sz - 1 - (V.sz - (c + 1)))))).1,
        (depthWrite E d n (V.pix i j) (E.pz (V.cz + (V.sz - 1 - (V.sz - (c + 1)))))).2)
    else
      scanCol E V out i j c (idx + 1) d n

/-- Phase 2 of `pixels`: replay the column iteration, skipping a column when
its pixel depth already reaches the view's top height. -/
def pixCols (E : Eval) (V : View) (out : ℕ → ℚ) :
    List (ℕ × ℕ) → ℕ → DepthImage → NormalImage → ℕ × DepthImage × NormalImage
  | [], idx, d, n => (idx, d, n)
  | c :: cs, idx, d, n =>
    if d (V.pix c.1 c.2) < (topZ E V : WithBot ℚ) then
      pixCols E V out cs (scanCol E V out c.1 c.2 V.sz idx d n).1
        (scanCol E V out c.1 c.2 V.sz idx d n).2.1
        (scanCol E V out c.1 c.2 V.sz idx d n).2.2
    else
      pixCols E V out cs idx d n

/-- The leaf rasterizer `pixels`: stage, evaluate, extract. -/
def pixels (E : Eval) (V : View) (d : DepthImage) (n : NormalImage) :
    DepthImage × NormalImage :=
  ((pixCols E V (fun m => (stageList E V d).getD m 0) (cols V) 0 d n).2.1,
   (pixCols E V (fun m => (stageList E V d).getD m 0) (cols V) 0 d n).2.2)

theorem scanCol_cursor (E : Eval) (V : View) (out : ℕ → ℚ) (i j : ℕ) :
    ∀ c idx d n, c ≤ V.sz →
      (scanCol E V out i j c idx d n).1 = idx + c := by
  intro c
  induction c with
  | zero => intro idx d n _; rfl
  | succ c ih =>
      intro idx d n hc
      have hk : V.sz - 1 - (V.sz - (c + 1)) = c := by omega
      by_cases h0 : out idx < 0
      · simp only [scanCol, if_pos h0, hk]
        omega
      · simp only [scanCol, if_neg h0]
        rw [ih (idx + 1) d n (by omega)]
        omega

theorem scanCol_writes (E : Eval) (V : View) (out : ℕ → ℚ) (i j : ℕ) :
    ∀ c idx d n,
      ((scanCol E V out i j c idx d n).2.1 = d ∧
        (scanCol E V out i j c idx d n).2.2 = n) ∨
      (∃ z : ℚ, d (V.pix i j) < (z : WithBot ℚ) ∧
        (scanCol E V out i j c idx d n).2.1 = dwrite d (V.pix i j) z ∧
        (scanCol E V out i j c idx d n).2.2 = nwrite n (V.pix i j) (wordAt E (V.pix i j) z)) := by
  intro c
  induction c with
  | zero => intro idx d n; exact Or.inl ⟨rfl, rfl⟩
  | succ c ih =>
      intro idx d n
      by_cases h0 : out idx < 0
      · simp only [scanCol, if_pos h0]
        unfold depthWrite
        by_cases hlt : d (V.pix i j) < ((E.pz (V.cz + (V.sz - 1 - (V.sz - (c + 1))))) : WithBot ℚ)
        · right
          exact ⟨_, hlt, by rw [if_pos hlt], by rw [if_pos hlt]⟩
        · left
          rw [if_neg hlt]
          exact ⟨rfl, rfl⟩
      · simp only [scanCol, if_neg h0]
        exact ih (idx + 1) d n

theorem scanCol_spec (E : Eval) (hm : Monotone E.pz) (V : View) (out : ℕ → ℚ) (i j : ℕ) :
    ∀ c idx d n, c ≤ V.sz →
      (∀ m, m < c → out (idx + m) = E.fieldAt (V.cx + i) (V.cy + j) (V.cz + (c - 1 - m))) →
      (∀ p, (scanCol E V out i j c idx d n).2.1 p =
        if p = V.pix i j then max (d p) (colZ E V.cz c (V.pix i j)) else d p) ∧
      ImgStep E d n (scanCol E V out i j c idx d n).2.1 (scanCol E V out i j c idx d n).2.2 := by
  intro c
  induction c with
  | zero =>
      intro idx d n _ _
      refine ⟨?_, ImgStep.refl E d n⟩
      intro p
      rw [colZ_zero]
      by_cases hp : p = V.pix i j
      · subst hp
        simp [scanCol, max_eq_left bot_le]
      · simp [scanCol, hp]
  | succ c ih =>
      intro idx d n hc halign
      have hk : V.sz - 1 - (V.sz - (c + 1)) = c := by omega
      have h0 := halign 0 (Nat.succ_pos c)
      rw [Nat.add_zero] at h0
      have hc10 : c + 1 - 1 - 0 = c := by omega
      rw [hc10] at h0
      by_cases hneg : out idx < 0
      · -- first filled voxel of the column found: guarded write, cursor skip, break
        have hfield : E.fieldAt (V.cx + i) (V.cy + j) (V.cz + c) < 0 := by rw [← h0]; exact hneg
        have hpix1 : (V.pix i j).1 = V.cx + i := rfl
        have hpix2 : (V.pix i j).2 = V.cy + j := rfl
        have hcolZ : colZ E V.cz (c + 1) (V.pix i j) = (E.pz (V.cz + c) : WithBot ℚ) := by
          rw [colZ_succ, hpix1, hpix2, if_pos hfield]
          refine max_eq_right ?_
          exact colZ_le_pz E _ _ _ _ fun k hkk => hm (by omega)
        constructor
        · intro p
          simp only [scanCol, if_pos hneg, hk]
          rw [depthWrite_depth, hcolZ]
        · simp only [scanCol, if_pos hneg, hk]
          exact depthWrite_stepped E d n (V.pix i j) _
      · -- voxel empty: advance the cursor and continue downward
        have hfield : ¬ E.fieldAt (V.cx + i) (V.cy + j) (V.cz + c) < 0 := by rw [← h0]; exact hneg
        have halign2 : ∀ m, m < c →
            out (idx + 1 + m) = E.fieldAt (V.cx + i) (V.cy + j) (V.cz + (c - 1 - m)) := by
          intro m hmc
          have := halign (m + 1) (by omega)
          have ha : idx + (m + 1) = idx + 1 + m := by omega
          have hb : c + 1 - 1 - (m + 1) = c - 1 - m := by omega
          rw [ha, hb] at this
          exact this
        obtain ⟨hd, hstep⟩ := ih (idx + 1) d n (by omega) halign2
        have hcolZ : colZ E V.cz (c + 1) (V.pix i j) = colZ E V.cz c (V.pix i j) := by
          rw [colZ_succ]
          have hpix1 : (V.pix i j).1 = V.cx + i := rfl
          have hpix2 : (V.pix i j).2 = V.cy + j := rfl
          rw [hpix1, hpix2, if_neg hfield]
          exact max_eq_left bot_le
        constructor
        · intro p
          simp only [scanCol, if_neg hneg]
          rw [hd p, hcolZ]
        · simp only [scanCol, if_neg hneg]
          exact hstep

theorem stageColumn_length_of_lt (E : Eval) (V : View) (d : DepthImage) (i j : ℕ)
    (h : d (V.pix i j) < (topZ E V : WithBot ℚ)) :
    (stageColumn E V d i j).length = V.sz := by
  unfold stageColumn
  rw [if_pos h, List.length_map, List.length_range]

theorem stageColumn_getD_of_lt (E : Eval) (V : View) (d : DepthImage) (i j m : ℕ)
    (h : d (V.pix i j) < (topZ E V : WithBot ℚ)) (hm : m < V.sz) :
    (stageColumn E V d i j).getD m 0 =
      E.fieldAt (V.cx + i) (V.cy + j) (V.cz + (V.sz - 1 - m)) := by
  unfold stageColumn
  rw [if_pos h]
  rw [List.getD_eq_getElem _ _ (by simpa using hm)]
  simp

theorem pixCols_spec (E : Eval) (hm : Monotone E.pz) (V : View)
    (out : ℕ → ℚ) (d0 : DepthImage) :
    ∀ cs : List (ℕ × ℕ), ∀ idx d n,
      (cs.map fun c => V.pix c.1 c.2).Nodup →
      (∀ c ∈ cs, d (V.pix c.1 c.2) = d0 (V.pix c.1 c.2)) →
      (∀ m, out (idx + m) = (stageOf E V d0 cs).getD m 0) →
      (∀ p, (pixCols E V out cs idx d n).2.1 p =
        if p ∈ cs.map (fun c => V.pix c.1 c.2) then max (d p) (colZ E V.cz V.sz p)
        else d p) ∧
      ImgStep E d n (pixCols E V out cs idx d n).2.1 (pixCols E V out cs idx d n).2.2 := by
  intro cs
  induction cs with
  | nil =>
      intro idx d n _ _ _
      exact ⟨fun p => by simp [pixCols], ImgStep.refl E d n⟩
  | cons c cs ih =>
      intro idx d n hnd hagree halign
      have hpc : c ∈ c :: cs := List.mem_cons_self c cs
      have hd0c : d (V.pix c.1 c.2) = d0 (V.pix c.1 c.2) := hagree c hpc
      have hnotin : V.pix c.1 c.2 ∉ cs.map fun c => V.pix c.1 c.2 :=
        (List.nodup_cons.mp hnd).1
      have hndtail : (cs.map fun c => V.pix c.1 c.2).Nodup := (List.nodup_cons.mp hnd).2
      by_cases hent : d (V.pix c.1 c.2) < (topZ E V : WithBot ℚ)
      · -- the column is entered: it staged a full column of sz values
        have hent0 : d0 (V.pix c.1 c.2) < (topZ E V : WithBot ℚ) := hd0c ▸ hent
        have hlen : (stageColumn E V d0 c.1 c.2).length = V.sz :=
          stageColumn_length_of_lt E V d0 c.1 c.2 hent0
        have halignCol : ∀ m, m < V.sz →
            out (idx + m) = E.fieldAt (V.cx + c.1) (V.cy + c.2) (V.cz + (V.sz - 1 - m)) := by
          intro m hmsz
          rw [halign m]
          have : (stageOf E V d0 (c :: cs)).getD m 0 = (stageColumn E V d0 c.1 c.2).getD m 0 := by
            unfold stageOf
            rw [List.flatMap_cons]
            exact List.getD_append _ _ _ _ (by omega)
          rw [this]
          exact stageColumn_getD_of_lt E V d0 c.1 c.2 m hent0 hmsz
        obtain ⟨hd1, hstep1⟩ :=
          scanCol_spec E hm V out c.1 c.2 V.sz idx d n (le_refl _) halignCol
        have hcur : (scanCol E V out c.1 c.2 V.sz idx d n).1 = idx + V.sz :=
          scanCol_cursor E V out c.1 c.2 V.sz idx d n (le_refl _)
        set r1 := scanCol E V out c.1 c.2 V.sz idx d n with hr1
        have halign2 : ∀ m, out (r1.1 + m) = (stageOf E V d0 cs).getD m 0 := by
          intro m
          rw [hcur]
          have : idx + V.sz + m = idx + (V.sz + m) := by omega
          rw [this, halign (V.sz + m)]
          unfold stageOf
          rw [List.flatMap_cons]
          have := List.getD_append_right (stageColumn E V d0 c.1 c.2)
            (cs.flatMap fun c => stageColumn E V d0 c.1 c.2) 0 (V.sz + m) (by omega)
          rw [this, hlen]
          congr 1
          omega
        have hagree2 : ∀ c2 ∈ cs, r1.2.1 (V.pix c2.1 c2.2) = d0 (V.pix c2.1 c2.2) := by
          intro c2 hc2
          rw [hd1]
          have hne : V.pix c2.1 c2.2 ≠ V.pix c.1 c.2 := by
            intro h
            exact hnotin (h ▸ List.mem_map_of_mem (fun c => V.pix c.1 c.2) hc2)
          rw [if_neg hne]
          exact hagree c2 (List.mem_cons_of_mem _ hc2)
        obtain ⟨hd2, hstep2⟩ := ih r1.1 r1.2.1 r1.2.2 hndtail hagree2 halign2
        constructor
        · intro p
          have hrw : pixCols E V out (c :: cs) idx d n =
              pixCols E V out cs r1.1 r1.2.1 r1.2.2 := by
            simp only [pixCols, if_pos hent]
          rw [hrw, hd2 p, hd1 p]
          simp only [List.map_cons, List.mem_cons]
          by_cases hp : p = V.pix c.1 c.2
          · subst hp
            simp [hnotin]
          · by_cases hmem : p ∈ cs.map fun c => V.pix c.1 c.2
            · simp [hp, hmem]
            · simp [hp, hmem]
        · have hrw : pixCols E V out (c :: cs) idx d n =
              pixCols E V out cs r1.1 r1.2.1 r1.2.2 := by
            simp only [pixCols, if_pos hent]
          rw [hrw]
          exact ImgStep.trans hstep1 hstep2
      · -- the column is skipped in both phases
        have hent0 : ¬ d0 (V.pix c.1 c.2) < (topZ E V : WithBot ℚ) := hd0c ▸ hent
        have hstage : stageColumn E V d0 c.1 c.2 = [] := by
          unfold stageColumn
          rw [if_neg hent0]
        have halign2 : ∀ m, out (idx + m) = (stageOf E V d0 cs).getD m 0 := by
          intro m
          rw [halign m]
          unfold stageOf
          rw [List.flatMap_cons, hstage, List.nil_append]
        have hagree2 : ∀ c2 ∈ cs, d (V.pix c2.1 c2.2) = d0 (V.pix c2.1 c2.2) :=
          fun c2 hc2 => hagree c2 (List.mem_cons_of_mem _ hc2)
        obtain ⟨hd2, hstep2⟩ := ih idx d n hndtail hagree2 halign2
        have hrw : pixCols E V out (c :: cs) idx d n = pixCols E V out cs idx d n := by
          simp only [pixCols, if_neg hent]
        constructor
        · intro p
          rw [hrw, hd2 p]
          simp only [List.map_cons, List.mem_cons]
          by_cases hp : p = V.pix c.1 c.2
          · subst hp
            have htop : (topZ E V : WithBot ℚ) ≤ d (V.pix c.1 c.2) := le_of_not_lt hent
            have hcol : colZ E V.cz V.sz (V.pix c.1 c.2) ≤ d (V.pix c.1 c.2) := by
              refine le_trans ?_ htop
              refine colZ_le_pz E _ _ _ _ fun k hk => ?_
              unfold topZ
              exact hm (by omega)
            rw [if_neg hnotin, if_pos (Or.inl rfl)]
            exact (max_eq_left hcol).symm
          · by_cases hmem : p ∈ cs.map fun c => V.pix c.1 c.2
            · simp [hp, hmem]
            · simp [hp, hmem]
        · rw [hrw]
          exact hstep2

theorem pixels_spec (E : Eval) (hm : Monotone E.pz) (V : View)
    (d : DepthImage) (n : NormalImage) :
    (∀ p, (pixels E V d n).1 p = max (d p) (colMaxV E V p)) ∧
    ImgStep E d n (pixels E V d n).1 (pixels E V d n).2 := by
  obtain ⟨hd, hstep⟩ := pixCols_spec E hm V (fun m => (stageList E V d).getD m 0) d
    (cols V) 0 d n (footpr_nodup V) (fun _ _ => rfl) (fun m => by rw [Nat.zero_add]; rfl)
  have hfoot : (List.map (fun c => V.pix c.1 c.2) (cols V)) = footpr V := rfl
  rw [hfoot] at hd
  refine ⟨?_, hstep⟩
  intro p
  rw [show (pixels E V d n).1 =
        (pixCols E V (fun m => (stageList E V d).getD m 0) (cols V) 0 d n).2.1 from rfl,
    hd p]
  unfold colMaxV
  by_cases hmem : p ∈ footpr V
  · rw [if_pos hmem, if_pos hmem]
  · rw [if_neg hmem, if_neg hmem, max_eq_left bot_le]

/-! ### The fill primitive -/

/-- `fill`: flood `z = pts.z[sz-1]` into the view's footprint, pushing a
normal for every pixel whose depth was below it, in (i outer, j inner)
iteration order. -/
def fill (E : Eval) (V : View) (d : DepthImage) (n : NormalImage) :
    DepthImage × NormalImage :=
  (cols V).foldl (fun st c => depthWrite E st.1 st.2 (V.pix c.1 c.2) (topZ E V)) (d, n)

theorem foldWrite_spec (E : Eval) (z : ℚ) :
    ∀ (ps : List Pixel) (d : DepthImage) (n : NormalImage), ps.Nodup →
      (∀ p, (ps.foldl (fun st c => depthWrite E st.1 st.2 c z) (d, n)).1 p =
        if p ∈ ps then max (d p) (z : WithBot ℚ) else d p) ∧
      ImgStep E d n (ps.foldl (fun st c => depthWrite E st.1 st.2 c z) (d, n)).1
        (ps.foldl (fun st c => depthWrite E st.1 st.2 c z) (d, n)).2 := by
  intro ps
  induction ps with
  | nil =>
      intro d n _
      exact ⟨fun p => by simp, ImgStep.refl E d n⟩
  | cons p0 ps ih =>
      intro d n hnd
      have hnotin : p0 ∉ ps := (List.nodup_cons.mp hnd).1
      have hndtail : ps.Nodup := (List.nodup_cons.mp hnd).2
      have hfold : ((p0 :: ps).foldl (fun st c => depthWrite E st.1 st.2 c z) (d, n)) =
          ps.foldl (fun st c => depthWrite E st.1 st.2 c z) (depthWrite E d n p0 z) := by
        rw [List.foldl_cons]
      obtain ⟨hd2, hstep2⟩ := ih (depthWrite E d n p0 z).1 (depthWrite E d n p0 z).2 hndtail
      constructor
      · intro p
        rw [hfold]
        have : (depthWrite E d n p0 z) =
            ((depthWrite E d n p0 z).1, (depthWrite E d n p0 z).2) := rfl
        rw [this, hd2 p, depthWrite_depth]
        simp only [List.mem_cons]
        by_cases hp : p = p0
        · subst hp
          simp [hnotin]
        · by_cases hmem : p ∈ ps
          · simp [hp, hmem]
          · simp [hp, hmem]
      · rw [hfold]
        have : (depthWrite E d n p0 z) =
            ((depthWrite E d n p0 z).1, (depthWrite E d n p0 z).2) := rfl
        rw [this]
        exact ImgStep.trans (depthWrite_stepped E d n p0 z) hstep2

theorem fill_spec (E : Eval) (hm : Monotone E.pz) (V : View)
    (d : DepthImage) (n : NormalImage) (hsz : 0 < V.sz)
    (hin : ∀ i j k, i < V.sx → j < V.sy → k < V.sz →
      E.fieldAt (V.cx + i) (V.cy + j) (V.cz + k) < 0) :
    (∀ p, (fill E V d n).1 p = max (d p) (colMaxV E V p)) ∧
    ImgStep E d n (fill E V d n).1 (fill E V d n).2 := by
  have hfill : fill E V d n =
      (footpr V).foldl (fun st c => depthWrite E st.1 st.2 c (topZ E V)) (d, n) := by
    unfold fill footpr
    rw [List.foldl_map]
  obtain ⟨hd2, hstep2⟩ := foldWrite_spec E (topZ E V) (footpr V) d n (footpr_nodup V)
  rw [hfill]
  refine ⟨?_, hstep2⟩
  intro p
  rw [hd2 p]
  unfold colMaxV
  by_cases hmem : p ∈ footpr V
  · rw [if_pos hmem, if_pos hmem]
    rcases mem_footpr.mp hmem with ⟨h1, h2, h3, h4⟩
    have hcol : colZ E V.cz V.sz p = (E.pz (V.cz + (V.sz - 1)) : WithBot ℚ) := by
      refine colZ_eq_top E hm _ _ hsz p ?_
      intro k hk
      have hx : V.cx + (p.1 - V.cx) = p.1 := by omega
      have hy : V.cy + (p.2 - V.cy) = p.2 := by omega
      have := hin (p.1 - V.cx) (p.2 - V.cy) k (by omega) (by omega) hk
      rw [hx, hy] at this
      exact this
    rw [hcol]
    rfl
  · rw [if_neg hmem, if_neg hmem, max_eq_left bot_le]

/-! ### The recursive renderer -/

/-- The occlusion test `(block >= r.pts.z()[r.size.z() - 1]).all()`. -/
def allAbove (E : Eval) (V : View) (d : DepthImage) : Bool :=
  (cols V).all fun c => decide ((topZ E V : WithBot ℚ) ≤ d (V.pix c.1 c.2))

theorem allAbove_spec {E : Eval} {V : View} {d : DepthImage}
    (h : allAbove E V d = true) :
    ∀ p ∈ footpr V, (topZ E V : WithBot ℚ) ≤ d p := by
  intro p hp
  rcases List.mem_map.mp hp with ⟨c, hc, hpc⟩
  subst hpc
  have := List.all_eq_true.mp h c hc
  exact of_decide_eq_true this

/-- The evaluator batch capacity `Result::N`. -/
def ResultN : ℕ := 256

/-- Sizes are positive on all three axes. -/
def Pos (V : View) : Prop := 0 < V.sx ∧ 0 < V.sy ∧ 0 < V.sz

theorem voxels_pos {V : View} (hp : Pos V) : 0 < V.voxels :=
  Nat.mul_pos (Nat.mul_pos hp.1 hp.2.1) hp.2.2

/-- Modelled from the spec: `Voxels::View::split()` (voxels.cpp is not among
the given sources).  It bisects along the axis of largest size with ties
broken X before Y before Z; the `high` child holds the larger-index samples,
and the two children partition the parent exactly. -/
def View.split (V : View) : View × View :=
  if V.sy ≤ V.sx ∧ V.sz ≤ V.sx then
    (⟨V.cx, V.cy, V.cz, V.sx / 2, V.sy, V.sz⟩,
     ⟨V.cx + V.sx / 2, V.cy, V.cz, V.sx - V.sx / 2, V.sy, V.sz⟩)
  else if V.sz ≤ V.sy then
    (⟨V.cx, V.cy, V.cz, V.sx, V.sy / 2, V.sz⟩,
     ⟨V.cx, V.cy + V.sy / 2, V.cz, V.sx, V.sy - V.sy / 2, V.sz⟩)
  else
    (⟨V.cx, V.cy, V.cz, V.sx, V.sy, V.sz / 2⟩,
     ⟨V.cx, V.cy, V.cz + V.sz / 2, V.sx, V.sy, V.sz - V.sz / 2⟩)

theorem mul3_lt_left {a a2 b c : ℕ} (h : a2 < a) (hb : 0 < b) (hc : 0 < c) :
    a2 * b * c < a * b * c :=
  mul_lt_mul_of_pos_right (mul_lt_mul_of_pos_right h hb) hc

theorem mul3_lt_mid {a b2 b c : ℕ} (h : b2 < b) (ha : 0 < a) (hc : 0 < c) :
    a * b2 * c < a * b * c :=
  mul_lt_mul_of_pos_right (mul_lt_mul_of_pos_left h ha) hc

theorem mul3_lt_right {a b c2 c : ℕ} (h : c2 < c) (ha : 0 < a) (hb : 0 < b) :
    a * b * c2 < a * b * c :=
  mul_lt_mul_of_pos_left h (Nat.mul_pos ha hb)

theorem split_pos_lt (V : View) (hp : Pos V) (h2 : 2 ≤ V.voxels) :
    Pos V.split.1 ∧ Pos V.split.2 ∧
    V.split.1.voxels < V.voxels ∧ V.split.2.voxels < V.voxels := by
  obtain ⟨hx, hy, hz⟩ := hp
  have hbig : 2 ≤ V.sx ∨ 2 ≤ V.sy ∨ 2 ≤ V.sz := by
    by_contra hcon
    push_neg at hcon
    have hle : V.voxels ≤ 1 := by
      unfold View.voxels
      calc V.sx * V.sy * V.sz ≤ 1 * 1 * 1 :=
        Nat.mul_le_mul (Nat.mul_le_mul (by omega) (by omega)) (by omega)
      _ = 1 := by norm_num
    omega
  unfold View.split
  split_ifs with hX hY
  · -- X is the largest axis
    have hsx2 : 2 ≤ V.sx := by omega
    refine ⟨⟨?_, hy, hz⟩, ⟨?_, hy, hz⟩, ?_, ?_⟩
    · show 0 < V.sx / 2
      omega
    · show 0 < V.sx - V.sx / 2
      omega
    · show V.sx / 2 * V.sy * V.sz < V.sx * V.sy * V.sz
      exact mul3_lt_left (by omega) hy hz
    · show (V.sx - V.sx / 2) * V.sy * V.sz < V.sx * V.sy * V.sz
      exact mul3_lt_left (by omega) hy hz
  · -- Y is the largest axis
    have hsy2 : 2 ≤ V.sy := by omega
    refine ⟨⟨hx, ?_, hz⟩, ⟨hx, ?_, hz⟩, ?_, ?_⟩
    · show 0 < V.sy / 2
      omega
    · show 0 < V.sy - V.sy / 2
      omega
    · show V.sx * (V.sy / 2) * V.sz < V.sx * V.sy * V.sz
      exact mul3_lt_mid (by omega) hx hz
    · show V.sx * (V.sy - V.sy / 2) * V.sz < V.sx * V.sy * V.sz
      exact mul3_lt_mid (by omega) hx hz
  · -- Z is the largest axis
    have hsz2 : 2 ≤ V.sz := by omega
    refine ⟨⟨hx, hy, ?_⟩, ⟨hx, hy, ?_⟩, ?_, ?_⟩
    · show 0 < V.sz / 2
      omega
    · show 0 < V.sz - V.sz / 2
      omega
    · show V.sx * V.sy * (V.sz / 2) < V.sx * V.sy * V.sz
      exact mul3_lt_right (by omega) hx hy
    · show V.sx * V.sy * (V.sz - V.sz / 2) < V.sx * V.sy * V.sz
      exact mul3_lt_right (by omega) hx hy

theorem colMaxV_pair_x (E : Eval) (V : View) (h : ℕ) (hh : h ≤ V.sx) (p : Pixel) :
    colMaxV E V p =
      max (colMaxV E ⟨V.cx, V.cy, V.cz, h, V.sy, V.sz⟩ p)
          (colMaxV E ⟨V.cx + h, V.cy, V.cz, V.sx - h, V.sy, V.sz⟩ p) := by
  have hmlo : (p ∈ footpr (⟨V.cx, V.cy, V.cz, h, V.sy, V.sz⟩ : View)) ↔
      V.cx ≤ p.1 ∧ p.1 < V.cx + h ∧ V.cy ≤ p.2 ∧ p.2 < V.cy + V.sy := mem_footpr
  have hmhi : (p ∈ footpr (⟨V.cx + h, V.cy, V.cz, V.sx - h, V.sy, V.sz⟩ : View)) ↔
      V.cx + h ≤ p.1 ∧ p.1 < V.cx + h + (V.sx - h) ∧ V.cy ≤ p.2 ∧ p.2 < V.cy + V.sy :=
    mem_footpr
  unfold colMaxV
  by_cases hmem : p ∈ footpr V
  · rcases mem_footpr.mp hmem with ⟨h1, h2, h3, h4⟩
    rw [if_pos hmem]
    by_cases hlo : p.1 < V.cx + h
    · rw [if_pos (hmlo.mpr (by omega)), if_neg (fun hc => absurd (hmhi.mp hc) (by omega))]
      exact (max_eq_left bot_le).symm
    · rw [if_neg (fun hc => absurd (hmlo.mp hc) (by omega)), if_pos (hmhi.mpr (by omega))]
      exact (max_eq_right bot_le).symm
  · have hmem2 := hmem
    rw [mem_footpr] at hmem2
    rw [if_neg hmem, if_neg (fun hc => absurd (hmlo.mp hc) (by omega)),
      if_neg (fun hc => absurd (hmhi.mp hc) (by omega))]
    exact (max_eq_left (le_refl _)).symm

theorem colMaxV_pair_y (E : Eval) (V : View) (h : ℕ) (hh : h ≤ V.sy) (p : Pixel) :
    colMaxV E V p =
      max (colMaxV E ⟨V.cx, V.cy, V.cz, V.sx, h, V.sz⟩ p)
          (colMaxV E ⟨V.cx, V.cy + h, V.cz, V.sx, V.sy - h, V.sz⟩ p) := by
  have hmlo : (p ∈ footpr (⟨V.cx, V.cy, V.cz, V.sx, h, V.sz⟩ : View)) ↔
      V.cx ≤ p.1 ∧ p.1 < V.cx + V.sx ∧ V.cy ≤ p.2 ∧ p.2 < V.cy + h := mem_footpr
  have hmhi : (p ∈ footpr (⟨V.cx, V.cy + h, V.cz, V.sx, V.sy - h, V.sz⟩ : View)) ↔
      V.cx ≤ p.1 ∧ p.1 < V.cx + V.sx ∧ V.cy + h ≤ p.2 ∧ p.2 < V.cy + h + (V.sy - h) :=
    mem_footpr
  unfold colMaxV
  by_cases hmem : p ∈ footpr V
  · rcases mem_footpr.mp hmem with ⟨h1, h2, h3, h4⟩
    rw [if_pos hmem]
    by_cases hlo : p.2 < V.cy + h
    · rw [if_pos (hmlo.mpr (by omega)), if_neg (fun hc => absurd (hmhi.mp hc) (by omega))]
      exact (max_eq_left bot_le).symm
    · rw [if_neg (fun hc => absurd (hmlo.mp hc) (by omega)), if_pos (hmhi.mpr (by omega))]
      exact (max_eq_right bot_le).symm
  · have hmem2 := hmem
    rw [mem_footpr] at hmem2
    rw [if_neg hmem, if_neg (fun hc => absurd (hmlo.mp hc) (by omega)),
      if_neg (fun hc => absurd (hmhi.mp hc) (by omega))]
    exact (max_eq_left (le_refl _)).symm

theorem colMaxV_pair_z (E : Eval) (V : View) (h : ℕ) (hh : h ≤ V.sz) (p : Pixel) :
    colMaxV E V p =
      max (colMaxV E ⟨V.cx, V.cy, V.cz, V.sx, V.sy, h⟩ p)
          (colMaxV E ⟨V.cx, V.cy, V.cz + h, V.sx, V.sy, V.sz - h⟩ p) := by
  have hmlo : (p ∈ footpr (⟨V.cx, V.cy, V.cz, V.sx, V.sy, h⟩ : View)) ↔ p ∈ footpr V := by
    rw [mem_footpr, mem_footpr]
  have hmhi : (p ∈ footpr (⟨V.cx, V.cy, V.cz + h, V.sx, V.sy, V.sz - h⟩ : View)) ↔
      p ∈ footpr V := by
    rw [mem_footpr, mem_footpr]
  unfold colMaxV
  by_cases hmem : p ∈ footpr V
  · rw [if_pos hmem, if_pos (hmlo.mpr hmem), if_pos (hmhi.mpr hmem)]
    exact colZ_split E V.cz V.sz h hh p
  · rw [if_neg hmem, if_neg (fun hc => hmem (hmlo.mp hc)),
      if_neg (fun hc => hmem (hmhi.mp hc))]
    exact (max_eq_left (le_refl _)).symm

theorem colMaxV_split (E : Eval) (V : View) (p : Pixel) :
    colMaxV E V p = max (colMaxV E V.split.1 p) (colMaxV E V.split.2 p) := by
  unfold View.split
  split_ifs with hX hY
  · exact colMaxV_pair_x E V (V.sx / 2) (Nat.div_le_self _ _) p
  · exact colMaxV_pair_y E V (V.sy / 2) (Nat.div_le_self _ _) p
  · exact colMaxV_pair_z E V (V.sz / 2) (Nat.div_le_self _ _) p

/-- Result of one `recurse` call: the completion flag (false on abort), the
next poll tick, the number of `e->push()` and `e->pop()` calls performed, and
the images on return. -/
structure RecResult where
  ok : Bool
  t : ℕ
  pushes : ℕ
  pops : ℕ
  depth : DepthImage
  norm : NormalImage

/-- The recursive renderer `recurse`.  The abort flag is modelled as a
predicate on poll ticks (one tick per invocation, polled at entry), so that
every abort interleaving has a representative.  The recursion is made
structural on a fuel argument; any fuel at least `V.voxels` behaves as the
unbounded recursion of the source because every split strictly shrinks the
view. -/
def recurse (E : Eval) (abortAt : ℕ → Bool) :
    ℕ → View → ℕ → DepthImage → NormalImage → RecResult
  | 0, V, t, d, n =>
    if abortAt t then ⟨false, t + 1, 0, 0, d, n⟩
    else if allAbove E V d then ⟨true, t + 1, 0, 0, d, n⟩
    else if V.voxels ≤ ResultN then
      ⟨true, t + 1, 0, 0, (pixels E V d n).1, (pixels E V d n).2⟩
    else if (E.ieval V).2 < 0 then
      ⟨true, t + 1, 0, 0, (fill E V d n).1, (fill E V d n).2⟩
    else if (E.ieval V).1 ≤ 0 then
      -- fuel exhausted inside the ambiguous branch: cannot happen when the
      -- initial fuel is at least the view's voxel count
      ⟨false, t + 1, 0, 0, d, n⟩
    else ⟨true, t + 1, 0, 0, d, n⟩
  | fuel + 1, V, t, d, n =>
    if abortAt t then ⟨false, t + 1, 0, 0, d, n⟩
    else if allAbove E V d then ⟨true, t + 1, 0, 0, d, n⟩
    else if V.voxels ≤ ResultN then
      ⟨true, t + 1, 0, 0, (pixels E V d n).1, (pixels E V d n).2⟩
    else if (E.ieval V).2 < 0 then
      ⟨true, t + 1, 0, 0, (fill E V d n).1, (fill E V d n).2⟩
    else if (E.ieval V).1 ≤ 0 then
      -- e->push(), recurse into the higher-z child first, then the lower one,
      -- with e->pop() balanced on the abort paths as in the source
      let r2 := recurse E abortAt fuel V.split.2 (t + 1) d n
      if r2.ok = false then ⟨false, r2.t, 1 + r2.pushes, r2.pops + 1, r2.depth, r2.norm⟩
      else
        let r1 := recurse E abortAt fuel V.split.1 r2.t r2.depth r2.norm
        if r1.ok = false then
          ⟨false, r1.t, 1 + r2.pushes + r1.pushes, r2.pops + r1.pops + 1, r1.depth, r1.norm⟩
        else
          ⟨true, r1.t, 1 + r2.pushes + r1.pushes, r2.pops + r1.pops + 1, r1.depth, r1.norm⟩
    else ⟨true, t + 1, 0, 0, d, n⟩

theorem recurse_spec (E : Eval) (hm : Monotone E.pz) (hs : IntervalSound E) :
    ∀ fuel V t d n, V.voxels ≤ fuel → Pos V →
      (recurse E (fun _ => false) fuel V t d n).ok = true ∧
      (∀ p, (recurse E (fun _ => false) fuel V t d n).depth p = max (d p) (colMaxV E V p)) ∧
      ImgStep E d n (recurse E (fun _ => false) fuel V t d n).depth
        (recurse E (fun _ => false) fuel V t d n).norm := by
  intro fuel
  induction fuel with
  | zero =>
      intro V t d n hfuel hpos
      exact absurd hfuel (by have := voxels_pos hpos; omega)
  | succ f ih =>
      intro V t d n hfuel hpos
      by_cases hAll : allAbove E V d = true
      · -- the whole block is already occluded
        have hres : recurse E (fun _ => false) (f + 1) V t d n = ⟨true, t + 1, 0, 0, d, n⟩ := by
          rw [recurse]
          simp [hAll]
        refine ⟨by rw [hres], ?_, ?_⟩
        · intro p
          rw [hres]
          show d p = max (d p) (colMaxV E V p)
          by_cases hmem : p ∈ footpr V
          · have h1 := allAbove_spec hAll p hmem
            have h2 : colMaxV E V p ≤ d p := le_trans (colMaxV_le_topZ E hm V p) h1
            exact (max_eq_left h2).symm
          · unfold colMaxV
            rw [if_neg hmem]
            exact (max_eq_left bot_le).symm
        · rw [hres]
          exact ImgStep.refl E d n
      · by_cases hN : V.voxels ≤ ResultN
        · -- leaf: render pixel by pixel
          have hres : recurse E (fun _ => false) (f + 1) V t d n =
              ⟨true, t + 1, 0, 0, (pixels E V d n).1, (pixels E V d n).2⟩ := by
            rw [recurse]
            simp [hAll, hN]
          obtain ⟨hd, hstep⟩ := pixels_spec E hm V d n
          refine ⟨by rw [hres], ?_, ?_⟩
          · intro p
            rw [hres]
            exact hd p
          · rw [hres]
            exact hstep
        · by_cases hup : (E.ieval V).2 < 0
          · -- interval strictly negative: fill
            have hin : ∀ i j k, i < V.sx → j < V.sy → k < V.sz →
                E.fieldAt (V.cx + i) (V.cy + j) (V.cz + k) < 0 := fun i j k hi hj hk =>
              lt_of_le_of_lt (hs V i j k hi hj hk).2 hup
            obtain ⟨hd, hstep⟩ := fill_spec E hm V d n hpos.2.2 hin
            have hres : recurse E (fun _ => false) (f + 1) V t d n =
                ⟨true, t + 1, 0, 0, (fill E V d n).1, (fill E V d n).2⟩ := by
              rw [recurse]
              simp [hAll, hN, hup]
            refine ⟨by rw [hres], ?_, ?_⟩
            · intro p
              rw [hres]
              exact hd p
            · rw [hres]
              exact hstep
          · by_cases hlow : (E.ieval V).1 ≤ 0
            · -- the interval is ambiguous: descend, high-z child first
              have h2vox : 2 ≤ V.voxels := by
                have hN2 := hN
                unfold ResultN at hN2
                omega
              obtain ⟨hpos1, hpos2, hlt1, hlt2⟩ := split_pos_lt V hpos h2vox
              obtain ⟨hok2, hd2, hstep2⟩ := ih V.split.2 (t + 1) d n (by omega) hpos2
              set R2 := recurse E (fun _ => false) f V.split.2 (t + 1) d n with hR2
              obtain ⟨hok1, hd1, hstep1⟩ := ih V.split.1 R2.t R2.depth R2.norm (by omega) hpos1
              set R1 := recurse E (fun _ => false) f V.split.1 R2.t R2.depth R2.norm with hR1
              have hres : recurse E (fun _ => false) (f + 1) V t d n =
                  ⟨true, R1.t, 1 + R2.pushes + R1.pushes, R2.pops + R1.pops + 1,
                    R1.depth, R1.norm⟩ := by
                rw [recurse]
                simp [hAll, hN, hup, hlow, ← hR2, ← hR1, hok2, hok1]
              refine ⟨by rw [hres], ?_, ?_⟩
              · intro p
                rw [hres]
                show R1.depth p = max (d p) (colMaxV E V p)
                rw [hd1 p, hd2 p, colMaxV_split E V p]
                rw [max_assoc, max_comm (colMaxV E V.split.2 p) (colMaxV E V.split.1 p)]
              · rw [hres]
                exact ImgStep.trans hstep2 hstep1
            · -- the interval is strictly positive: the view is empty
              have hout : ∀ p, colMaxV E V p = ⊥ := by
                intro p
                unfold colMaxV
                by_cases hmem : p ∈ footpr V
                · rw [if_pos hmem]
                  rcases mem_footpr.mp hmem with ⟨h1, h2, h3, h4⟩
                  refine colZ_eq_bot E _ _ p ?_
                  intro k hk
                  have hxp : V.cx + (p.1 - V.cx) = p.1 := by omega
                  have hyp : V.cy + (p.2 - V.cy) = p.2 := by omega
                  have hlow2 := (hs V (p.1 - V.cx) (p.2 - V.cy) k (by omega) (by omega) hk).1
                  rw [hxp, hyp] at hlow2
                  have : (0 : ℚ) < (E.ieval V).1 := by
                    by_contra hc
                    exact hlow (by push_neg at hc; exact hc)
                  exact not_lt_of_le (le_trans (le_of_lt this) hlow2)
                · rw [if_neg hmem]
              have hres : recurse E (fun _ => false) (f + 1) V t d n =
                  ⟨true, t + 1, 0, 0, d, n⟩ := by
                rw [recurse]
                simp [hAll, hN, hup, hlow]
              refine ⟨by rw [hres], ?_, ?_⟩
              · intro p
                rw [hres, hout p]
                exact (max_eq_left bot_le).symm
              · rw [hres]
                exact ImgStep.refl E d n

/-! ### The parallel driver -/

/-- Modelled from the spec: the XY-only split variant
`split<Axis::X | Axis::Y>` used by the driver to partition work (voxels.cpp is
not among the given sources).  It splits along the larger of the X and Y
extents, ties going to X; the children partition the parent. -/
def View.splitXY (V : View) : View × View :=
  if V.sy ≤ V.sx then
    (⟨V.cx, V.cy, V.cz, V.sx / 2, V.sy, V.sz⟩,
     ⟨V.cx + V.sx / 2, V.cy, V.cz, V.sx - V.sx / 2, V.sy, V.sz⟩)
  else
    (⟨V.cx, V.cy, V.cz, V.sx, V.sy / 2, V.sz⟩,
     ⟨V.cx, V.cy + V.sy / 2, V.cz, V.sx, V.sy - V.sy / 2, V.sz⟩)

theorem splitXY_partition (V : View) (p : Pixel) :
    ((if p ∈ footpr V.splitXY.1 then 1 else 0) +
      (if p ∈ footpr V.splitXY.2 then 1 else 0) : ℕ) =
      if p ∈ footpr V then 1 else 0 := by
  have hmV : (p ∈ footpr V) ↔
      V.cx ≤ p.1 ∧ p.1 < V.cx + V.sx ∧ V.cy ≤ p.2 ∧ p.2 < V.cy + V.sy := mem_footpr
  unfold View.splitXY
  by_cases hxy : V.sy ≤ V.sx
  · rw [if_pos hxy]
    have hmlo : (p ∈ footpr (⟨V.cx, V.cy, V.cz, V.sx / 2, V.sy, V.sz⟩ : View)) ↔
        V.cx ≤ p.1 ∧ p.1 < V.cx + V.sx / 2 ∧ V.cy ≤ p.2 ∧ p.2 < V.cy + V.sy := mem_footpr
    have hmhi : (p ∈ footpr (⟨V.cx + V.sx / 2, V.cy, V.cz, V.sx - V.sx / 2, V.sy,
        V.sz⟩ : View)) ↔
        V.cx + V.sx / 2 ≤ p.1 ∧ p.1 < V.cx + V.sx / 2 + (V.sx - V.sx / 2) ∧
          V.cy ≤ p.2 ∧ p.2 < V.cy + V.sy := mem_footpr
    simp only [hmlo, hmhi, hmV]
    split_ifs <;> omega
  · rw [if_neg hxy]
    have hmlo : (p ∈ footpr (⟨V.cx, V.cy, V.cz, V.sx, V.sy / 2, V.sz⟩ : View)) ↔
        V.cx ≤ p.1 ∧ p.1 < V.cx + V.sx ∧ V.cy ≤ p.2 ∧ p.2 < V.cy + V.sy / 2 := mem_footpr
    have hmhi : (p ∈ footpr (⟨V.cx, V.cy + V.sy / 2, V.cz, V.sx, V.sy - V.sy / 2,
        V.sz⟩ : View)) ↔
        V.cx ≤ p.1 ∧ p.1 < V.cx + V.sx ∧ V.cy + V.sy / 2 ≤ p.2 ∧
          p.2 < V.cy + V.sy / 2 + (V.sy - V.sy / 2) := mem_footpr
    simp only [hmlo, hmhi, hmV]
    split_ifs <;> omega

theorem splitXY_children (V : View) (h2x : 2 ≤ V.sx) (h2y : 2 ≤ V.sy) (hz : 0 < V.sz) :
    (Pos V.splitXY.1 ∧ V.splitXY.1.cz = V.cz ∧ V.splitXY.1.sz = V.sz) ∧
    (Pos V.splitXY.2 ∧ V.splitXY.2.cz = V.cz ∧ V.splitXY.2.sz = V.sz) := by
  unfold View.splitXY
  split_ifs with hxy
  · exact ⟨⟨⟨show 0 < V.sx / 2 by omega, show 0 < V.sy by omega, hz⟩, rfl, rfl⟩,
      ⟨⟨show 0 < V.sx - V.sx / 2 by omega, show 0 < V.sy by omega, hz⟩, rfl, rfl⟩⟩
  · exact ⟨⟨⟨show 0 < V.sx by omega, show 0 < V.sy / 2 by omega, hz⟩, rfl, rfl⟩,
      ⟨⟨show 0 < V.sx by omega, show 0 < V.sy - V.sy / 2 by omega, hz⟩, rfl, rfl⟩⟩

/-- The work-list loop of `render`: while there are fewer tiles than workers
and the front tile's smaller XY extent exceeds 1, pop the front, split it with
the XY-only variant, and push both halves at the back.  The loop grows the
list by one element per iteration, so the explicit iteration bound passed by
`buildTiles` (the worker count) never cuts the loop short. -/
def buildTilesAux (workers : ℕ) : ℕ → List View → List View
  | 0, rs => rs
  | _ + 1, [] => []
  | g + 1, f :: rest =>
    if (f :: rest).length < workers ∧ 1 < min f.sx f.sy then
      buildTilesAux workers g (rest ++ [f.splitXY.1, f.splitXY.2])
    else f :: rest

/-- The tile list `render` dispatches, one task per tile. -/
def buildTiles (workers : ℕ) (root : View) : List View :=
  buildTilesAux workers workers [root]

/-- Number of tiles of a work list whose footprint contains a pixel. -/
def memCount (p : Pixel) (rs : List View) : ℕ :=
  (rs.map fun T => if p ∈ footpr T then 1 else 0).sum

theorem memCount_nil (p : Pixel) : memCount p [] = 0 := rfl

theorem memCount_cons (p : Pixel) (T : View) (ts : List View) :
    memCount p (T :: ts) = (if p ∈ footpr T then 1 else 0) + memCount p ts := by
  unfold memCount
  rw [List.map_cons, List.sum_cons]

theorem memCount_append (p : Pixel) (l1 l2 : List View) :
    memCount p (l1 ++ l2) = memCount p l1 + memCount p l2 := by
  unfold memCount
  rw [List.map_append, List.sum_append]

theorem memCount_eq_zero {p : Pixel} {rs : List View} (h : memCount p rs = 0) :
    ∀ T ∈ rs, p ∉ footpr T := by
  induction rs with
  | nil => intro T hT; cases hT
  | cons T ts ih =>
      rw [memCount_cons] at h
      intro T2 hT2
      rcases List.mem_cons.mp hT2 with h2 | h2
      · subst h2
        intro hmem
        rw [if_pos hmem] at h
        omega
      · exact ih (by omega) T2 h2

/-- Invariant of the work list: tiles are positive and span the full z range
of the root, and the tile footprints partition the root footprint (each pixel
lies in exactly one tile if it lies in the root, in none otherwise). -/
def TilesInv (root : View) (rs : List View) : Prop :=
  (∀ T ∈ rs, Pos T ∧ T.cz = root.cz ∧ T.sz = root.sz) ∧
  (∀ p : Pixel, memCount p rs = if p ∈ footpr root then 1 else 0)

theorem buildTilesAux_inv (root : View) (workers : ℕ) :
    ∀ g rs, TilesInv root rs → TilesInv root (buildTilesAux workers g rs) := by
  intro g
  induction g with
  | zero => intro rs h; exact h
  | succ g ih =>
      intro rs h
      match rs with
      | [] => exact h
      | f :: rest =>
          rw [buildTilesAux]
          split_ifs with hcond
          · apply ih
            have hf := h.1 f (List.mem_cons_self _ _)
            have hsx2 : 2 ≤ f.sx := by
              have := hcond.2
              omega
            have hsy2 : 2 ≤ f.sy := by
              have := hcond.2
              omega
            obtain ⟨⟨hp1, hcz1, hsz1⟩, ⟨hp2, hcz2, hsz2⟩⟩ :=
              splitXY_children f hsx2 hsy2 hf.1.2.2
            constructor
            · intro T hT
              rcases List.mem_append.mp hT with hT | hT
              · exact h.1 T (List.mem_cons_of_mem _ hT)
              · rcases List.mem_cons.mp hT with h1 | h1
                · subst h1
                  exact ⟨hp1, hcz1.trans hf.2.1, hsz1.trans hf.2.2⟩
                · rw [List.mem_singleton] at h1
                  subst h1
                  exact ⟨hp2, hcz2.trans hf.2.1, hsz2.trans hf.2.2⟩
            · intro p
              have hc := h.2 p
              rw [memCount_cons] at hc
              rw [memCount_append, memCount_cons, memCount_cons, memCount_nil]
              have hsplit := splitXY_partition f p
              omega
          · exact h

theorem buildTiles_inv (root : View) (hpos : Pos root) (workers : ℕ) :
    TilesInv root (buildTiles workers root) := by
  apply buildTilesAux_inv
  constructor
  · intro T hT
    rw [List.mem_singleton] at hT
    subst hT
    exact ⟨hpos, rfl, rfl⟩
  · intro p
    rw [memCount_cons, memCount_nil]
    omega

theorem buildTilesAux_len (workers : ℕ) :
    ∀ g rs, rs ≠ [] → rs.length ≤ workers →
      buildTilesAux workers g rs ≠ [] ∧ (buildTilesAux workers g rs).length ≤ workers := by
  intro g
  induction g with
  | zero => intro rs h1 h2; exact ⟨h1, h2⟩
  | succ g ih =>
      intro rs h1 h2
      match rs with
      | [] => exact absurd rfl h1
      | f :: rest =>
          rw [buildTilesAux]
          split_ifs with hcond
          · refine ih _ (by simp) ?_
            have := hcond.1
            simp only [List.length_append, List.length_cons] at this ⊢
            simp only [List.length_nil]
            omega
          · exact ⟨h1, h2⟩

/-- The per-tile body of the driver modelled sequentially; the tile footprints
are pixel-disjoint (TilesInv), so no pixel is touched by two tiles and the
sequential order is observationally the parallel execution of the source. -/
def renderTilesFrom (E : Eval) (tiles : List View) (st : DepthImage × NormalImage) :
    DepthImage × NormalImage :=
  tiles.foldl
    (fun st T => ((recurse E (fun _ => false) T.voxels T 0 st.1 st.2).depth,
                  (recurse E (fun _ => false) T.voxels T 0 st.1 st.2).norm)) st

/-- Depth is initialized to -inf and the normal image to 0 before dispatch. -/
def renderTiles (E : Eval) (tiles : List View) : DepthImage × NormalImage :=
  renderTilesFrom E tiles (fun _ => ⊥, fun _ => 0)

/-- The post-pass `norm = (depth == r.pts[2].back()).select(0xffff7f7f, norm)`. -/
def skySelect (E : Eval) (Nz : ℕ) (dn : DepthImage × NormalImage) :
    DepthImage × NormalImage :=
  (dn.1, fun p => if dn.1 p = (E.pz (Nz - 1) : WithBot ℚ) then 0xffff7f7f else dn.2 p)

/-- The root view `r.view()` of an Nx by Ny by Nz voxel grid. -/
def rootView (Nx Ny Nz : ℕ) : View := ⟨0, 0, 0, Nx, Ny, Nz⟩

/-- The driver `render`, modelled sequentially over the tile list. -/
def renderModel (E : Eval) (workers Nx Ny Nz : ℕ) : DepthImage × NormalImage :=
  skySelect E Nz (renderTiles E (buildTiles workers (rootView Nx Ny Nz)))

theorem renderTilesFrom_spec (E : Eval) (hm : Monotone E.pz) (hs : IntervalSound E) :
    ∀ (tiles : List View) (d : DepthImage) (n : NormalImage),
      (∀ T ∈ tiles, Pos T) →
      (∀ p, (renderTilesFrom E tiles (d, n)).1 p =
        tiles.foldl (fun a T => max a (colMaxV E T p)) (d p)) ∧
      ImgStep E d n (renderTilesFrom E tiles (d, n)).1 (renderTilesFrom E tiles (d, n)).2 := by
  intro tiles
  induction tiles with
  | nil =>
      intro d n _
      exact ⟨fun p => rfl, ImgStep.refl E d n⟩
  | cons T ts ih =>
      intro d n hpos
      have hposT := hpos T (List.mem_cons_self _ _)
      obtain ⟨hok, hd1, hstep1⟩ := recurse_spec E hm hs T.voxels T 0 d n (le_refl _) hposT
      have hrw : renderTilesFrom E (T :: ts) (d, n) =
          renderTilesFrom E ts ((recurse E (fun _ => false) T.voxels T 0 d n).depth,
            (recurse E (fun _ => false) T.voxels T 0 d n).norm) := rfl
      obtain ⟨hd2, hstep2⟩ := ih (recurse E (fun _ => false) T.voxels T 0 d n).depth
        (recurse E (fun _ => false) T.voxels T 0 d n).norm
        (fun T2 hT2 => hpos T2 (List.mem_cons_of_mem _ hT2))
      constructor
      · intro p
        rw [hrw, hd2 p, List.foldl_cons, hd1 p]
      · rw [hrw]
        exact ImgStep.trans hstep1 hstep2

theorem foldMax_bot (E : Eval) (p : Pixel) :
    ∀ (tiles : List View) (a : WithBot ℚ),
      (∀ T ∈ tiles, p ∉ footpr T) →
      tiles.foldl (fun a T => max a (colMaxV E T p)) a = a := by
  intro tiles
  induction tiles with
  | nil => intro a _; rfl
  | cons T ts ih =>
      intro a hmem
      rw [List.foldl_cons]
      have h1 : colMaxV E T p = ⊥ := by
        unfold colMaxV
        rw [if_neg (hmem T (List.mem_cons_self _ _))]
      rw [h1, max_eq_left bot_le]
      exact ih a fun T2 hT2 => hmem T2 (List.mem_cons_of_mem _ hT2)

theorem foldMax_tiles (E : Eval) (root : View) :
    ∀ (tiles : List View) (p : Pixel) (a : WithBot ℚ),
      (∀ T ∈ tiles, T.cz = root.cz ∧ T.sz = root.sz) →
      (memCount p tiles = if p ∈ footpr root then 1 else 0) →
      tiles.foldl (fun a T => max a (colMaxV E T p)) a = max a (colMaxV E root p) := by
  intro tiles
  induction tiles with
  | nil =>
      intro p a _ hcount
      rw [memCount_nil] at hcount
      have hmem : p ∉ footpr root := by
        intro hmem
        rw [if_pos hmem] at hcount
        omega
      show a = max a (colMaxV E root p)
      unfold colMaxV
      rw [if_neg hmem]
      exact (max_eq_left bot_le).symm
  | cons T ts ih =>
      intro p a hzs hcount
      rw [memCount_cons] at hcount
      rw [List.foldl_cons]
      by_cases hmemT : p ∈ footpr T
      · -- p lies in this tile, hence in the root and in no other tile
        rw [if_pos hmemT] at hcount
        have hmemRoot : p ∈ footpr root := by
          by_contra hcon
          rw [if_neg hcon] at hcount
          omega
        rw [if_pos hmemRoot] at hcount
        have hts0 : memCount p ts = 0 := by omega
        have hnone : ∀ T2 ∈ ts, p ∉ footpr T2 := memCount_eq_zero hts0
        have hzT := hzs T (List.mem_cons_self _ _)
        have hcolT : colMaxV E T p = colZ E root.cz root.sz p := by
          unfold colMaxV
          rw [if_pos hmemT, hzT.1, hzT.2]
        have hcolRoot : colMaxV E root p = colZ E root.cz root.sz p := by
          unfold colMaxV
          rw [if_pos hmemRoot]
        rw [foldMax_bot E p ts _ hnone, hcolT, hcolRoot]
      · rw [if_neg hmemT] at hcount
        have hcolT : colMaxV E T p = ⊥ := by
          unfold colMaxV
          rw [if_neg hmemT]
        rw [hcolT, max_eq_left bot_le]
        exact ih p a (fun T2 hT2 => hzs T2 (List.mem_cons_of_mem _ hT2)) (by omega)

/-- The per-pixel closed form of the sequential driver: the final depth is the
column maximum over the root, and the final normal word is determined by it
(the sky stamp at the top z sample, the packed gradient word otherwise, with
zero exactly at bottom depth). -/
theorem renderModel_formula (E : Eval) (hm : Monotone E.pz) (hs : IntervalSound E)
    (workers Nx Ny Nz : ℕ) (hroot : Pos (rootView Nx Ny Nz)) :
    (∀ p, (renderModel E workers Nx Ny Nz).1 p = colMaxV E (rootView Nx Ny Nz) p) ∧
    (∀ p, (renderModel E workers Nx Ny Nz).2 p =
      if colMaxV E (rootView Nx Ny Nz) p = (E.pz (Nz - 1) : WithBot ℚ) then 0xffff7f7f
      else wordAtW E p (colMaxV E (rootView Nx Ny Nz) p)) := by
  obtain ⟨htiles, hcount⟩ := buildTiles_inv (rootView Nx Ny Nz) hroot workers
  obtain ⟨hd, hstep⟩ := renderTilesFrom_spec E hm hs (buildTiles workers (rootView Nx Ny Nz))
    (fun _ => ⊥) (fun _ => 0) (fun T hT => (htiles T hT).1)
  have hdepth : ∀ p, (renderTiles E (buildTiles workers (rootView Nx Ny Nz))).1 p =
      colMaxV E (rootView Nx Ny Nz) p := by
    intro p
    rw [show renderTiles E (buildTiles workers (rootView Nx Ny Nz)) =
        renderTilesFrom E (buildTiles workers (rootView Nx Ny Nz))
          (fun _ => ⊥, fun _ => 0) from rfl, hd p]
    rw [foldMax_tiles E (rootView Nx Ny Nz) _ p ⊥
      (fun T hT => ⟨(htiles T hT).2.1, (htiles T hT).2.2⟩) (hcount p)]
    exact max_eq_right bot_le
  have hnorm : ∀ p, (renderTiles E (buildTiles workers (rootView Nx Ny Nz))).2 p =
      wordAtW E p (colMaxV E (rootView Nx Ny Nz) p) := by
    intro p
    obtain ⟨hle, heq, hne⟩ := hstep p
    by_cases hchange :
        (renderTilesFrom E (buildTiles workers (rootView Nx Ny Nz))
          (fun _ => ⊥, fun _ => 0)).1 p = (⊥ : WithBot ℚ)
    · have h0 := heq hchange
      have hcol : colMaxV E (rootView Nx Ny Nz) p = ⊥ := by
        rw [← hdepth p]
        exact hchange
      rw [show (renderTiles E (buildTiles workers (rootView Nx Ny Nz))).2 =
          (renderTilesFrom E (buildTiles workers (rootView Nx Ny Nz))
            (fun _ => ⊥, fun _ => 0)).2 from rfl, h0, hcol, wordAtW_bot]
    · have hw := hne hchange
      rw [show (renderTiles E (buildTiles workers (rootView Nx Ny Nz))).2 =
          (renderTilesFrom E (buildTiles workers (rootView Nx Ny Nz))
            (fun _ => ⊥, fun _ => 0)).2 from rfl, hw]
      congr 1
      exact hdepth p
  constructor
  · intro p
    rw [show (renderModel E workers Nx Ny Nz).1 =
        (renderTiles E (buildTiles workers (rootView Nx Ny Nz))).1 from rfl]
    exact hdepth p
  · intro p
    show (if (renderTiles E (buildTiles workers (rootView Nx Ny Nz))).1 p =
        (E.pz (Nz - 1) : WithBot ℚ) then 0xffff7f7f
      else (renderTiles E (buildTiles workers (rootView Nx Ny Nz))).2 p) = _
    rw [hdepth p, hnorm p]

/-! ### Float model for the lane computation of NormalRenderer::run

The lane computation uses IEEE-754 single arithmetic.  The model below
carries exact rationals for finite values and collapses every non-finite
result (NaN or infinity) into the single value `nonfinite`; the zero-gradient
path below only produces the genuine NaN 0/0, so the collapse is harmless for
the claims settled here.  `Rat.sqrt` stands in for the correctly rounded
float square root; only `sqrt 0 = 0`, which is exact in IEEE-754, matters. -/

inductive FVal where
  | nonfinite : FVal
  | val : ℚ → FVal
deriving Repr, DecidableEq

def fadd : FVal → FVal → FVal
  | FVal.val a, FVal.val b => FVal.val (a + b)
  | _, _ => FVal.nonfinite

def fmul : FVal → FVal → FVal
  | FVal.val a, FVal.val b => FVal.val (a * b)
  | _, _ => FVal.nonfinite

/-- Division: x/0 is non-finite (NaN for 0/0, an infinity otherwise). -/
def fdiv : FVal → FVal → FVal
  | FVal.val a, FVal.val b => if b = 0 then FVal.nonfinite else FVal.val (a / b)
  | _, _ => FVal.nonfinite

/-- pow(x, 2), exact in IEEE-754 up to rounding of the product. -/
def fpow2 (x : FVal) : FVal := fmul x x

def fsqrt : FVal → FVal
  | FVal.val q => if q < 0 then FVal.nonfinite else FVal.val (Rat.sqrt q)
  | FVal.nonfinite => FVal.nonfinite

/-- The C++ conversion (uint32_t)f: defined only for finite values whose
truncation lies in [0, 2^32); undefined — none — otherwise, in particular for
NaN (C++17 [conv.fpint]). -/
def toUInt32F : FVal → Option ℕ
  | FVal.nonfinite => none
  | FVal.val q =>
    if 0 ≤ q then (if q < 2 ^ 32 then some (Int.toNat ⌊q⌋) else none)
    else if -1 < q then some 0 else none

/-- length = sqrt(dx^2 + dy^2 + dz^2) of NormalRenderer::run. -/
def gradLength (dx dy dz : FVal) : FVal :=
  fsqrt (fadd (fadd (fpow2 dx) (fpow2 dy)) (fpow2 dz))

/-- One scaled lane, 255 * (d / (2 * length) + 0.5). -/
def scaledLane (d len : FVal) : FVal :=
  fmul (FVal.val 255) (fadd (fdiv d (fmul (FVal.val 2) len)) (FVal.val (1 / 2)))

/-- The packed word run() computes for one slot; none when the conversion of
any lane is undefined. -/
def runWord (dx dy dz : FVal) : Option ℕ :=
  match toUInt32F (scaledLane dx (gradLength dx dy dz)),
        toUInt32F (scaledLane dy (gradLength dx dy dz)),
        toUInt32F (scaledLane dz (gradLength dx dy dz)) with
  | some ix, some iy, some iz => some (packNormal ix iy iz)
  | _, _, _ => none

/-! ### The batch-counter discipline of NormalRenderer -/

/-- The batch capacity NUM_POINTS = Result::N. -/
def NUMPOINTS : ℕ := 256

/-- State of a NormalRenderer: the two pixel-coordinate slot arrays and the
count; the staged height of each slot (held by the evaluator in the source)
is carried alongside. -/
structure NRState where
  xs : ℕ → ℕ
  ys : ℕ → ℕ
  zs : ℕ → ℚ
  count : ℕ

/-- run(): blit the packed normals of the first count slots (the image effect
is modelled at the push sites, see the file comment) and reset the count. -/
def NRState.run (s : NRState) : NRState :=
  { s with count := 0 }

/-- push(i, j, z): record the pixel coordinates at slot count, stage the
point, increment the count, and run automatically when the batch fills. -/
def NRState.push (s : NRState) (cornerx cornery i j : ℕ) (z : ℚ) : NRState :=
  let s2 : NRState :=
    { xs := fun m => if m = s.count then cornerx + i else s.xs m,
      ys := fun m => if m = s.count then cornery + j else s.ys m,
      zs := fun m => if m = s.count then z else s.zs m,
      count := s.count + 1 }
  if s2.count = NUMPOINTS then s2.run else s2

/-- flush(): run() iff slots are pending. -/
def NRState.flush (s : NRState) : NRState :=
  if 0 < s.count then s.run else s

/-! ### A concrete evaluator instance for witnesses -/

/-- A concrete evaluator used to instantiate the theorems below: integer z
samples, the constant field -1 (everything inside), zero gradient lanes, and
the constant sound interval [-1, -1]. -/
def E0 : Eval :=
  { pz := fun k => (k : ℚ),
    fieldAt := fun _ _ _ => -1,
    laneX := fun _ _ => 0,
    laneY := fun _ _ => 0,
    laneZ := fun _ _ => 0,
    ieval := fun _ => (-1, -1) }

theorem E0_monotone : Monotone E0.pz := by
  intro a b h
  show (a : ℚ) ≤ (b : ℚ)
  exact_mod_cast h

theorem E0_sound : IntervalSound E0 :=
  fun _ _ _ _ _ _ _ => ⟨le_refl _, le_refl _⟩

/-! ### Unconditional depth monotonicity -/

theorem depthWrite_mono (E : Eval) (d : DepthImage) (n : NormalImage)
    (q : Pixel) (z : ℚ) (p : Pixel) : d p ≤ (depthWrite E d n q z).1 p :=
  ((depthWrite_stepped E d n q z) p).1

theorem scanCol_depth_mono (E : Eval) (V : View) (out : ℕ → ℚ) (i j c idx : ℕ)
    (d : DepthImage) (n : NormalImage) (p : Pixel) :
    d p ≤ (scanCol E V out i j c idx d n).2.1 p := by
  rcases scanCol_writes E V out i j c idx d n with ⟨h1, _⟩ | ⟨z, hlt, h1, _⟩
  · rw [h1]
  · rw [h1]
    unfold dwrite
    split
    · rename_i hp
      subst hp
      exact le_of_lt hlt
    · exact le_refl _

theorem pixCols_depth_mono (E : Eval) (V : View) (out : ℕ → ℚ) :
    ∀ (cs : List (ℕ × ℕ)) (idx : ℕ) (d : DepthImage) (n : NormalImage) (p : Pixel),
      d p ≤ (pixCols E V out cs idx d n).2.1 p := by
  intro cs
  induction cs with
  | nil => intro idx d n p; exact le_refl _
  | cons c cs ih =>
      intro idx d n p
      rw [pixCols]
      split_ifs with hent
      · exact le_trans (scanCol_depth_mono E V out c.1 c.2 V.sz idx d n p) (ih _ _ _ p)
      · exact ih _ _ _ p

theorem foldWrite_depth_mono (E : Eval) (V : View) (z : ℚ) :
    ∀ (cs : List (ℕ × ℕ)) (d : DepthImage) (n : NormalImage) (p : Pixel),
      d p ≤ (cs.foldl (fun st c => depthWrite E st.1 st.2 (V.pix c.1 c.2) z) (d, n)).1 p := by
  intro cs
  induction cs with
  | nil => intro d n p; exact le_refl _
  | cons c cs ih =>
      intro d n p
      rw [List.foldl_cons]
      refine le_trans (depthWrite_mono E d n (V.pix c.1 c.2) z p) ?_
      exact ih (depthWrite E d n (V.pix c.1 c.2) z).1 (depthWrite E d n (V.pix c.1 c.2) z).2 p

theorem pixels_depth_mono (E : Eval) (V : View) (d : DepthImage) (n : NormalImage)
    (p : Pixel) : d p ≤ (pixels E V d n).1 p :=
  pixCols_depth_mono E V (fun m => (stageList E V d).getD m 0) (cols V) 0 d n p

theorem fill_depth_mono (E : Eval) (V : View) (d : DepthImage) (n : NormalImage)
    (p : Pixel) : d p ≤ (fill E V d n).1 p :=
  foldWrite_depth_mono E V (topZ E V) (cols V) d n p

theorem recurse_depth_mono (E : Eval) (abortAt : ℕ → Bool) :
    ∀ (fuel : ℕ) (V : View) (t : ℕ) (d : DepthImage) (n : NormalImage) (p : Pixel),
      d p ≤ (recurse E abortAt fuel V t d n).depth p := by
  intro fuel
  induction fuel with
  | zero =>
      intro V t d n p
      rw [recurse]
      split_ifs <;>
        first
          | exact le_refl _
          | exact pixels_depth_mono E V d n p
          | exact fill_depth_mono E V d n p
  | succ f ih =>
      intro V t d n p
      rw [recurse]
      dsimp only
      split_ifs <;>
        first
          | exact le_refl _
          | exact pixels_depth_mono E V d n p
          | exact fill_depth_mono E V d n p
          | exact ih V.split.2 (t + 1) d n p
          | exact le_trans (ih V.split.2 (t + 1) d n p)
              (ih V.split.1 (recurse E abortAt f V.split.2 (t + 1) d n).t
                (recurse E abortAt f V.split.2 (t + 1) d n).depth
                (recurse E abortAt f V.split.2 (t + 1) d n).norm p)

/-! ### The claims -/

/-- C1: assuming the evaluator contract of §4.2 (interval evaluation sound
over the box, values(k) < 0 iff the staged point is inside), for every pixel
(x, y) of a completed (non-aborted) render the final depth value equals the
maximum pz[k] over all voxel centers of that column at which the field value
is < 0 (`colZ E 0 Nz`), and equals -inf (bottom) when no such voxel exists. -/
theorem claim1_final_depth_is_column_max (E : Eval) (hm : Monotone E.pz)
    (hs : IntervalSound E) (workers Nx Ny Nz x y : ℕ) (_hw : 1 ≤ workers)
    (hx : 0 < Nx) (hy : 0 < Ny) (hz : 0 < Nz) (hx2 : x < Nx) (hy2 : y < Ny) :
    (renderModel E workers Nx Ny Nz).1 (x, y) = colZ E 0 Nz (x, y) := by
  obtain ⟨hd, _⟩ := renderModel_formula E hm hs workers Nx Ny Nz ⟨hx, hy, hz⟩
  have hmem : ((x, y) : Pixel) ∈ footpr (rootView Nx Ny Nz) := by
    rw [mem_footpr]
    exact ⟨show 0 ≤ x by omega, show x < 0 + Nx by omega, show 0 ≤ y by omega,
      show y < 0 + Ny by omega⟩
  rw [hd (x, y)]
  unfold colMaxV
  rw [if_pos hmem]
  rfl

/-- Witness for C1: a fully concrete instance discharging every hypothesis. -/
theorem claim1_final_depth_is_column_max_witness :
    Monotone E0.pz ∧ IntervalSound E0 ∧
    (renderModel E0 1 1 1 1).1 (0, 0) = colZ E0 0 1 (0, 0) :=
  ⟨E0_monotone, E0_sound,
    claim1_final_depth_is_column_max E0 E0_monotone E0_sound 1 1 1 1 0 0 (le_refl 1)
      Nat.one_pos Nat.one_pos Nat.one_pos Nat.one_pos Nat.one_pos⟩

/-- C2: for every invocation of recurse, on every return path — Done, Aborted
at entry, and Aborted inside either recursive descent (all reachable through
some abort schedule `abortAt` and fuel) — the number of push calls performed
equals the number of pop calls performed. -/
theorem claim2_push_pop_balanced (E : Eval) (abortAt : ℕ → Bool) :
    ∀ fuel V t d n, (recurse E abortAt fuel V t d n).pushes =
      (recurse E abortAt fuel V t d n).pops := by
  intro fuel
  induction fuel with
  | zero =>
      intro V t d n
      rw [recurse]
      split_ifs <;> rfl
  | succ f ih =>
      intro V t d n
      rw [recurse]
      dsimp only
      split_ifs <;>
        first
          | rfl
          | (have e2 := ih V.split.2 (t + 1) d n
             have e1 := ih V.split.1 (recurse E abortAt f V.split.2 (t + 1) d n).t
               (recurse E abortAt f V.split.2 (t + 1) d n).depth
               (recurse E abortAt f V.split.2 (t + 1) d n).norm
             dsimp only
             omega)

/-- C3: render is deterministic (the model is a pure function of its inputs)
and for any two worker counts the resulting depth and normal images are
identical. -/
theorem claim3_worker_count_independent (E : Eval) (hm : Monotone E.pz)
    (hs : IntervalSound E) (Nx Ny Nz w1 w2 : ℕ) (_hw1 : 1 ≤ w1) (_hw2 : 1 ≤ w2)
    (hx : 0 < Nx) (hy : 0 < Ny) (hz : 0 < Nz) :
    renderModel E w1 Nx Ny Nz = renderModel E w2 Nx Ny Nz := by
  obtain ⟨hd1, hn1⟩ := renderModel_formula E hm hs w1 Nx Ny Nz ⟨hx, hy, hz⟩
  obtain ⟨hd2, hn2⟩ := renderModel_formula E hm hs w2 Nx Ny Nz ⟨hx, hy, hz⟩
  apply Prod.ext
  · funext p
    rw [hd1 p, hd2 p]
  · funext p
    rw [hn1 p, hn2 p]

/-- Witness for C3: one and two workers on a concrete grid. -/
theorem claim3_worker_count_independent_witness :
    Monotone E0.pz ∧ IntervalSound E0 ∧
    renderModel E0 1 1 1 1 = renderModel E0 2 1 1 1 :=
  ⟨E0_monotone, E0_sound,
    claim3_worker_count_independent E0 E0_monotone E0_sound 1 1 1 1 2 (le_refl 1)
      (by omega) Nat.one_pos Nat.one_pos Nat.one_pos⟩

/-- C4: after render returns, every pixel whose depth equals pz[Nz-1] (the
topmost z sample) holds exactly the packed word 0xFFFF7F7F in the normal
image, regardless of any normal previously written there. -/
theorem claim4_sky_sentinel (E : Eval) (workers Nx Ny Nz : ℕ) (p : Pixel)
    (h : (renderModel E workers Nx Ny Nz).1 p = (E.pz (Nz - 1) : WithBot ℚ)) :
    (renderModel E workers Nx Ny Nz).2 p = 0xffff7f7f := by
  have h2 : (renderTiles E (buildTiles workers (rootView Nx Ny Nz))).1 p =
      (E.pz (Nz - 1) : WithBot ℚ) := h
  show (if (renderTiles E (buildTiles workers (rootView Nx Ny Nz))).1 p =
      (E.pz (Nz - 1) : WithBot ℚ) then 0xffff7f7f
    else (renderTiles E (buildTiles workers (rootView Nx Ny Nz))).2 p) = 0xffff7f7f
  rw [if_pos h2]

/-- Witness for C4: with the constant-inside field the single pixel reaches
the top z sample and carries the sky word. -/
theorem claim4_sky_sentinel_witness :
    (renderModel E0 1 1 1 1).1 (0, 0) = (E0.pz 0 : WithBot ℚ) ∧
    (renderModel E0 1 1 1 1).2 (0, 0) = 0xffff7f7f :=
  ⟨by decide, claim4_sky_sentinel E0 1 1 1 1 (0, 0) (by decide)⟩

/-- C6 counterexample: with a root grid of X extent 1 and a pool of two
evaluators, the work-list loop stops immediately (the front tile's smaller XY
extent is 1), so only one task is dispatched: the number of tasks differs
from the pool size. -/
theorem claim6_counterexample :
    (buildTiles 2 (rootView 1 5 5)).length ≠ 2 := by decide

/-- C6 amended: the number of dispatched tasks (one per tile) is at least one
and at most the pool size — equality can fail when the loop stops on a front
tile with an XY extent of 1 — and the tasks use pairwise distinct evaluators
(task k takes the k-th evaluator of the pool). -/
theorem claim6_amended_tasks_at_most_pool (workers : ℕ) (root : View)
    (hw : 1 ≤ workers) :
    1 ≤ (buildTiles workers root).length ∧
    (buildTiles workers root).length ≤ workers ∧
    (List.range (buildTiles workers root).length).Nodup := by
  have h := buildTilesAux_len workers workers [root] (by simp) (by simpa using hw)
  exact ⟨List.length_pos.mpr h.1, h.2, List.nodup_range _⟩

/-- Witness for C6 amended. -/
theorem claim6_amended_tasks_at_most_pool_witness :
    1 ≤ (1 : ℕ) ∧
    (1 ≤ (buildTiles 1 (rootView 1 1 1)).length ∧
      (buildTiles 1 (rootView 1 1 1)).length ≤ 1 ∧
      (List.range (buildTiles 1 (rootView 1 1 1)).length).Nodup) :=
  ⟨le_refl 1, claim6_amended_tasks_at_most_pool 1 (rootView 1 1 1) (le_refl 1)⟩

/-- C7: after render returns, for every pixel: a depth different from -inf
forces a nonzero normal word (the packed word always carries the 0xFF alpha
byte, and the sky stamp is nonzero), and a depth equal to -inf leaves the
normal word zero. -/
theorem claim7_norm_depth_pairing (E : Eval) (hm : Monotone E.pz)
    (hs : IntervalSound E) (workers Nx Ny Nz : ℕ)
    (hx : 0 < Nx) (hy : 0 < Ny) (hz : 0 < Nz) (p : Pixel) :
    ((renderModel E workers Nx Ny Nz).1 p ≠ ⊥ →
      (renderModel E workers Nx Ny Nz).2 p ≠ 0) ∧
    ((renderModel E workers Nx Ny Nz).1 p = ⊥ →
      (renderModel E workers Nx Ny Nz).2 p = 0) := by
  obtain ⟨hd, hn⟩ := renderModel_formula E hm hs workers Nx Ny Nz ⟨hx, hy, hz⟩
  constructor
  · intro hne
    rw [hd p] at hne
    rw [hn p]
    split_ifs with hsky
    · decide
    · exact wordAtW_ne_zero E p _ hne
  · intro hbot
    rw [hd p] at hbot
    rw [hn p, hbot, if_neg (fun hc => WithBot.bot_ne_coe hc), wordAtW_bot]

/-- Witness for C7. -/
theorem claim7_norm_depth_pairing_witness :
    Monotone E0.pz ∧ IntervalSound E0 ∧
    (((renderModel E0 1 1 1 1).1 (0, 0) ≠ ⊥ → (renderModel E0 1 1 1 1).2 (0, 0) ≠ 0) ∧
      ((renderModel E0 1 1 1 1).1 (0, 0) = ⊥ → (renderModel E0 1 1 1 1).2 (0, 0) = 0)) :=
  ⟨E0_monotone, E0_sound,
    claim7_norm_depth_pairing E0 E0_monotone E0_sound 1 1 1 1
      Nat.one_pos Nat.one_pos Nat.one_pos (0, 0)⟩

/-- C8: the depth image is per-pixel monotone: the guarded write primitive
shared by pixels and fill changes a pixel only to a strictly larger value
(and only at its own pixel), and recurse never decreases any pixel's depth,
for every fuel and abort schedule. -/
theorem claim8_depth_monotone (E : Eval) (abortAt : ℕ → Bool) (fuel : ℕ)
    (V : View) (t : ℕ) (d : DepthImage) (n : NormalImage) (p q : Pixel) (z : ℚ)
    (h : (depthWrite E d n q z).1 p ≠ d p) :
    (d p < (z : WithBot ℚ) ∧ p = q ∧ (depthWrite E d n q z).1 p = (z : WithBot ℚ)) ∧
    (∀ p2, d p2 ≤ (recurse E abortAt fuel V t d n).depth p2) := by
  constructor
  · unfold depthWrite at h ⊢
    split_ifs with hlt
    · rw [if_pos hlt] at h
      by_cases hp : p = q
      · subst hp
        refine ⟨hlt, rfl, ?_⟩
        show dwrite d p z p = (z : WithBot ℚ)
        unfold dwrite
        rw [if_pos rfl]
      · exfalso
        apply h
        show dwrite d q z p = d p
        unfold dwrite
        rw [if_neg hp]
    · rw [if_neg hlt] at h
      exact absurd rfl h
  · intro p2
    exact recurse_depth_mono E abortAt fuel V t d n p2

/-- Witness for C8: a concrete guarded write that strictly raises a pixel. -/
theorem claim8_depth_monotone_witness :
    ((depthWrite E0 (fun _ => ⊥) (fun _ => 0) (0, 0) 0).1 (0, 0) ≠
      (fun _ : Pixel => (⊥ : WithBot ℚ)) (0, 0)) ∧
    (((fun _ : Pixel => (⊥ : WithBot ℚ)) (0, 0) < ((0 : ℚ) : WithBot ℚ) ∧
        ((0, 0) : Pixel) = (0, 0) ∧
        (depthWrite E0 (fun _ => ⊥) (fun _ => 0) (0, 0) 0).1 (0, 0) = ((0 : ℚ) : WithBot ℚ)) ∧
      (∀ p2, (fun _ : Pixel => (⊥ : WithBot ℚ)) p2 ≤
        (recurse E0 (fun _ => false) 0 (rootView 1 1 1) 0 (fun _ => ⊥) (fun _ => 0)).depth p2)) :=
  ⟨by decide,
    claim8_depth_monotone E0 (fun _ => false) 0 (rootView 1 1 1) 0 (fun _ => ⊥)
      (fun _ => 0) (0, 0) (0, 0) 0 (by decide)⟩

/-- C9: pixels visits voxels with i outer, j middle, k inner and z index
sz-1-k (each staged column value at offset k is the field at z index
sz-1-k, so columns are scanned from the top down); a column whose pixel depth
already reaches the view top stages nothing and is skipped entirely by the
replay; and the column scan consumes exactly sz staged values (the cursor is
advanced past the remaining ones when it breaks on the first value < 0) while
performing at most one guarded depth write and one normal push. -/
theorem claim9_pixels_iteration (E : Eval) (V : View) (d0 d : DepthImage)
    (n : NormalImage) (out : ℕ → ℚ) (i j i2 j2 k idx : ℕ) (cs : List (ℕ × ℕ))
    (hk : k < V.sz)
    (hent : d0 (V.pix i j) < (topZ E V : WithBot ℚ))
    (hskip : ¬ d (V.pix i2 j2) < (topZ E V : WithBot ℚ)) :
    (stageColumn E V d0 i j).getD k 0 =
      E.fieldAt (V.cx + i) (V.cy + j) (V.cz + (V.sz - 1 - k)) ∧
    stageColumn E V d i2 j2 = [] ∧
    pixCols E V out ((i2, j2) :: cs) idx d n = pixCols E V out cs idx d n ∧
    (scanCol E V out i j V.sz idx d n).1 = idx + V.sz ∧
    ((scanCol E V out i j V.sz idx d n).2.1 = d ∧
        (scanCol E V out i j V.sz idx d n).2.2 = n ∨
      ∃ z : ℚ, d (V.pix i j) < (z : WithBot ℚ) ∧
        (scanCol E V out i j V.sz idx d n).2.1 = dwrite d (V.pix i j) z ∧
        (scanCol E V out i j V.sz idx d n).2.2 =
          nwrite n (V.pix i j) (wordAt E (V.pix i j) z)) := by
  refine ⟨stageColumn_getD_of_lt E V d0 i j k hent hk, ?_, ?_,
    scanCol_cursor E V out i j V.sz idx d n (le_refl _),
    scanCol_writes E V out i j V.sz idx d n⟩
  · unfold stageColumn
    rw [if_neg hskip]
  · rw [pixCols]
    rw [if_neg hskip]

/-- Witness for C9. -/
theorem claim9_pixels_iteration_witness :
    ((0 : ℕ) < (1 : ℕ) ∧
      (fun _ : Pixel => (⊥ : WithBot ℚ)) ((rootView 1 1 1).pix 0 0) <
        (topZ E0 (rootView 1 1 1) : WithBot ℚ) ∧
      ¬ (fun _ : Pixel => ((5 : ℚ) : WithBot ℚ)) ((rootView 1 1 1).pix 0 0) <
        (topZ E0 (rootView 1 1 1) : WithBot ℚ)) ∧
    ((stageColumn E0 (rootView 1 1 1) (fun _ => ⊥) 0 0).getD 0 0 =
      E0.fieldAt ((rootView 1 1 1).cx + 0) ((rootView 1 1 1).cy + 0)
        ((rootView 1 1 1).cz + ((rootView 1 1 1).sz - 1 - 0)) ∧
    stageColumn E0 (rootView 1 1 1) (fun _ => ((5 : ℚ) : WithBot ℚ)) 0 0 = [] ∧
    pixCols E0 (rootView 1 1 1) (fun _ => -1) ((0, 0) :: []) 0
        (fun _ => ((5 : ℚ) : WithBot ℚ)) (fun _ => 0) =
      pixCols E0 (rootView 1 1 1) (fun _ => -1) [] 0
        (fun _ => ((5 : ℚ) : WithBot ℚ)) (fun _ => 0) ∧
    (scanCol E0 (rootView 1 1 1) (fun _ => -1) 0 0 (rootView 1 1 1).sz 0
        (fun _ => ((5 : ℚ) : WithBot ℚ)) (fun _ => 0)).1 = 0 + (rootView 1 1 1).sz ∧
    ((scanCol E0 (rootView 1 1 1) (fun _ => -1) 0 0 (rootView 1 1 1).sz 0
          (fun _ => ((5 : ℚ) : WithBot ℚ)) (fun _ => 0)).2.1 =
          (fun _ => ((5 : ℚ) : WithBot ℚ)) ∧
        (scanCol E0 (rootView 1 1 1) (fun _ => -1) 0 0 (rootView 1 1 1).sz 0
          (fun _ => ((5 : ℚ) : WithBot ℚ)) (fun _ => 0)).2.2 = (fun _ => 0) ∨
      ∃ z : ℚ,
        (fun _ : Pixel => ((5 : ℚ) : WithBot ℚ)) ((rootView 1 1 1).pix 0 0) <
          (z : WithBot ℚ) ∧
        (scanCol E0 (rootView 1 1 1) (fun _ => -1) 0 0 (rootView 1 1 1).sz 0
          (fun _ => ((5 : ℚ) : WithBot ℚ)) (fun _ => 0)).2.1 =
          dwrite (fun _ => ((5 : ℚ) : WithBot ℚ)) ((rootView 1 1 1).pix 0 0) z ∧
        (scanCol E0 (rootView 1 1 1) (fun _ => -1) 0 0 (rootView 1 1 1).sz 0
          (fun _ => ((5 : ℚ) : WithBot ℚ)) (fun _ => 0)).2.2 =
          nwrite (fun _ => 0) ((rootView 1 1 1).pix 0 0)
            (wordAt E0 ((rootView 1 1 1).pix 0 0) z))) :=
  ⟨⟨by decide, by decide, by decide⟩,
    claim9_pixels_iteration E0 (rootView 1 1 1) (fun _ => ⊥)
      (fun _ => ((5 : ℚ) : WithBot ℚ)) (fun _ => 0) (fun _ => -1) 0 0 0 0 0 0 []
      (by decide) (by decide) (by decide)⟩

/-- C10: the batch counter discipline of NormalRenderer: starting below the
capacity, push writes the slot arrays exactly at index count, runs
automatically exactly when the count reaches NUM_POINTS (resetting it to 0),
keeps the count below the capacity, and run()/flush() leave count = 0, so the
destructor assertion holds whenever flush precedes destruction. -/
theorem claim10_nr_counter (s : NRState) (h : s.count < NUMPOINTS)
    (cornerx cornery i j : ℕ) (z : ℚ) :
    (s.push cornerx cornery i j z).count < NUMPOINTS ∧
    ((s.push cornerx cornery i j z).count =
      if s.count + 1 = NUMPOINTS then 0 else s.count + 1) ∧
    (s.push cornerx cornery i j z).xs s.count = cornerx + i ∧
    (s.push cornerx cornery i j z).ys s.count = cornery + j ∧
    (∀ m, m ≠ s.count → (s.push cornerx cornery i j z).xs m = s.xs m) ∧
    s.run.count = 0 ∧ s.flush.count = 0 := by
  have hN : NUMPOINTS = 256 := rfl
  refine ⟨?_, ?_, ?_, ?_, ?_, rfl, ?_⟩
  · unfold NRState.push NRState.run
    dsimp only
    split_ifs with h1
    · show 0 < NUMPOINTS
      omega
    · show s.count + 1 < NUMPOINTS
      omega
  · unfold NRState.push NRState.run
    dsimp only
    split_ifs with h1
    · rfl
    · rfl
  · unfold NRState.push NRState.run
    dsimp only
    split_ifs with h1 <;>
      · show (if s.count = s.count then cornerx + i else s.xs s.count) = cornerx + i
        rw [if_pos rfl]
  · unfold NRState.push NRState.run
    dsimp only
    split_ifs with h1 <;>
      · show (if s.count = s.count then cornery + j else s.ys s.count) = cornery + j
        rw [if_pos rfl]
  · intro m hm
    unfold NRState.push NRState.run
    dsimp only
    split_ifs with h1 <;>
      · show (if m = s.count then cornerx + i else s.xs m) = s.xs m
        rw [if_neg hm]
  · unfold NRState.flush NRState.run
    split_ifs with h1
    · rfl
    · omega

/-- Witness for C10. -/
theorem claim10_nr_counter_witness :
    ((NRState.mk (fun _ => 0) (fun _ => 0) (fun _ => 0) 0).count < NUMPOINTS) ∧
    (((NRState.mk (fun _ => 0) (fun _ => 0) (fun _ => 0) 0).push 3 4 1 2 7).count <
        NUMPOINTS ∧
      (((NRState.mk (fun _ => 0) (fun _ => 0) (fun _ => 0) 0).push 3 4 1 2 7).count =
        if (NRState.mk (fun _ => 0) (fun _ => 0) (fun _ => 0) 0).count + 1 = NUMPOINTS
        then 0
        else (NRState.mk (fun _ => 0) (fun _ => 0) (fun _ => 0) 0).count + 1) ∧
      ((NRState.mk (fun _ => 0) (fun _ => 0) (fun _ => 0) 0).push 3 4 1 2 7).xs
          (NRState.mk (fun _ => 0) (fun _ => 0) (fun _ => 0) 0).count = 3 + 1 ∧
      ((NRState.mk (fun _ => 0) (fun _ => 0) (fun _ => 0) 0).push 3 4 1 2 7).ys
          (NRState.mk (fun _ => 0) (fun _ => 0) (fun _ => 0) 0).count = 4 + 2 ∧
      (∀ m, m ≠ (NRState.mk (fun _ => 0) (fun _ => 0) (fun _ => 0) 0).count →
        ((NRState.mk (fun _ => 0) (fun _ => 0) (fun _ => 0) 0).push 3 4 1 2 7).xs m =
          (NRState.mk (fun _ => 0) (fun _ => 0) (fun _ => 0) 0).xs m) ∧
      (NRState.mk (fun _ => 0) (fun _ => 0) (fun _ => 0) 0).run.count = 0 ∧
      (NRState.mk (fun _ => 0) (fun _ => 0) (fun _ => 0) 0).flush.count = 0) :=
  ⟨by decide,
    claim10_nr_counter (NRState.mk (fun _ => 0) (fun _ => 0) (fun _ => 0) 0) (by decide)
      3 4 1 2 7⟩

/-- C5 counterexample: for a queued point with zero gradient, run() computes
0/0 = NaN in the lane scaling dx/(2*len), and the float-to-uint32 conversion
of the NaN lane has no defined result: no defined finite fallback packed word
is produced. -/
theorem claim5_counterexample :
    runWord (FVal.val 0) (FVal.val 0) (FVal.val 0) = none := by
  have hs : Rat.sqrt 0 = 0 := rfl
  norm_num [runWord, gradLength, scaledLane, fpow2, fmul, fadd, fdiv, fsqrt, toUInt32F, hs]

/-- C5 amended: for a queued point with zero gradient, the division
dx/(2*len) in NormalRenderer::run() is 0/0 and yields NaN, the NaN propagates
into the scaled lane, and the conversion of a non-finite lane to uint32 is
undefined rather than a defined finite fallback; nothing is signaled upward
(run() completes normally in the source, with implementation-defined bytes). -/
theorem claim5_amended_nan_propagates :
    fdiv (FVal.val 0)
        (fmul (FVal.val 2) (gradLength (FVal.val 0) (FVal.val 0) (FVal.val 0))) =
      FVal.nonfinite ∧
    scaledLane (FVal.val 0) (gradLength (FVal.val 0) (FVal.val 0) (FVal.val 0)) =
      FVal.nonfinite ∧
    toUInt32F FVal.nonfinite = none := by
  have hs : Rat.sqrt 0 = 0 := rfl
  norm_num [gradLength, scaledLane, fpow2, fmul, fadd, fdiv, fsqrt, toUInt32F, hs]

end HeightmapModel
